import Mathlib

/-!
# Verification of the unidoc core: stream codecs and document security

Shallow embedding, in Lean 4, of the codec layer (`core/encoding.go`, given as
`src/unnamed/part_000`) and the document security layer (`src/pdf/core/crypt.go`)
of the unidoc PDF library, together with proofs and refutations of the frozen
specification claims.

Modelling conventions:
* A Go `byte` is a `Nat` that callers keep below 256; wherever Go wraps
  (casts to `byte`, `uint32` arithmetic) the embedding takes `% 256` or
  `% 2 ^ 32` explicitly.
* A Go `(T, error)` result is `Except Err T`; error values are identified by
  constructor rather than by message text.
* External Go library primitives that are not part of this repository
  (crypto/sha256, crypto/sha512, crypto/aes block cipher, compress/zlib,
  compress/lzw, crypto/rand) are parameters collected in `ExtPrims`;
  theorems quantify over them, adding only the well-formedness facts the
  library documents (output lengths, byte ranges, and the inflate/deflate
  round-trip contract).  MD5 and RC4 are implemented concretely below.
* Repository helpers whose file is not among the given sources
  (`IsWhiteSpace`, `newECBDecrypter`, the object-model container types) are
  modelled from the specification; each such definition says so in its
  doc comment.
-/

namespace Unidoc

/-- Error values surfaced by the embedded operations.  The Go code returns
`error` values; we identify each distinct failure by a constructor. -/
inductive Err where
  | eof                     -- io.EOF / ReadByte past end
  | invalidCode             -- ASCII85 "Invalid code encountered"
  | invalidHexChar          -- ASCIIHex "Invalid ascii hex character"
  | unsupportedEncodingParameters -- core.ErrUnsupportedEncodingParameters
  | lzwPredictorUnsupported -- "LZW Predictor = 1 only supported yet"
  | lzwEarlyChangeUnsupported -- "LZW Early Change = 0 only supported yet"
  | invalidRowLength        -- "Invalid row length"
  | rangeCheck              -- "Range check error"
  | invalidFilterByte       -- "Invalid filter byte"
  | unsupportedPredictor    -- "Unsupported predictor"
  | invalidBitsPerComponent -- "Invalid BitsPerComponent=..."
  | zlibError               -- zlib.NewReader failure
  | lzwError                -- lzw reader failure
  | unsupportedCryptFilter  -- "Unsupported crypt filter"
  | unsupportedCryptMethod  -- "Unsupported crypt filter method"
  | rc4KeySize              -- rc4.NewCipher KeySizeError
  | aesKeySize              -- aes.NewCipher KeySizeError (panic paths included)
  | aesShortBuf             -- "AES: Buf len < 16"
  | aesBlockAlign           -- "AES buf length not multiple of 16"
  | aesPadLength            -- "Invalid pad length"
  | permsInvalid            -- alg13 "decoded permissions are invalid"
  | permsMismatch           -- alg13 "permissions validation failed"
  | invalidR                -- Alg6/Alg7 "invalid R"
  | runtimePanic            -- a Go runtime panic (index out of range)
  | outOfFuel               -- recursion fuel exhausted (never reached on real runs)
  deriving DecidableEq, Repr

/-- Decidable equality for `Except` results, so that concrete runs can be
checked by `decide`. -/
instance {ε α : Type} [DecidableEq ε] [DecidableEq α] :
    DecidableEq (Except ε α) := fun x y =>
  match x, y with
  | .ok a, .ok b =>
    if h : a = b then isTrue (by rw [h])
    else isFalse (fun hh => h (Except.ok.inj hh))
  | .error a, .error b =>
    if h : a = b then isTrue (by rw [h])
    else isFalse (fun hh => h (Except.error.inj hh))
  | .ok _, .error _ => isFalse (fun hh => Except.noConfusion hh)
  | .error _, .ok _ => isFalse (fun hh => Except.noConfusion hh)

/-- Bytes: `Nat` values; callers keep them `< 256`. -/
abbrev Bytes := List Nat

/-- All elements of a byte list are genuine byte values. -/
def ByteVals (xs : Bytes) : Prop := ∀ x ∈ xs, x < 256

instance : DecidablePred ByteVals := fun xs =>
  inferInstanceAs (Decidable (∀ x ∈ xs, x < 256))

/-- `IsWhiteSpace` — Modelled from the spec: the PDF white-space predicate
lives in the repository's parser file, which is not among the given sources.
The spec ("whitespace ignored", PDF lexical conventions) fixes the standard
set: NUL, TAB, LF, FF, CR, space. -/
def IsWhiteSpace (b : Nat) : Bool :=
  b == 0 || b == 9 || b == 10 || b == 12 || b == 13 || b == 32

/-! ## Raw encoder (part_000 lines 1499–1529) -/

namespace RawEncoder

/-- `RawEncoder.EncodeBytes`: identity pass-through. -/
def EncodeBytes (data : Bytes) : Except Err Bytes := .ok data

/-- `RawEncoder.DecodeBytes`: identity pass-through. -/
def DecodeBytes (encoded : Bytes) : Except Err Bytes := .ok encoded

end RawEncoder

/-! ## Run-length encoder (part_000 lines 1111–1253) -/

namespace RunLengthEncoder

/-- `RunLengthEncoder.DecodeBytes` (lines 1138–1169).  A length byte `b`:
`b > 128` repeats the next byte `257 - b` times, `b < 128` copies the next
`b + 1` bytes literally, `b = 128` ends decoding.  Running out of input
before the end marker is the `io.EOF` error of `ReadByte`. -/
def decodeGo : Nat → Bytes → Except Err Bytes
  | _, [] => .error .eof
  | 0, _ :: _ => .error .eof  -- unreachable when the fuel covers the length
  | fuel + 1, b :: rest =>
    if b > 128 then
      match rest with
      | [] => .error .eof
      | v :: rest' =>
        (fun tail => List.replicate (257 - b) v ++ tail) <$> decodeGo fuel rest'
    else if b < 128 then
      if b + 1 ≤ rest.length then
        (fun tail => rest.take (b + 1) ++ tail) <$>
          decodeGo fuel (rest.drop (b + 1))
      else .error .eof
    else .ok []

def DecodeBytes (encoded : Bytes) : Except Err Bytes :=
  decodeGo encoded.length encoded

/-- Loop state of `RunLengthEncoder.EncodeBytes`: the current reference byte
`b0`, the current run length, and the pending literal buffer. -/
structure RLState where
  b0 : Nat
  runLen : Nat
  literal : Bytes
  deriving Repr

/-- One iteration of the encoder loop (lines 1190–1232), for input byte `b`.
Returns the bytes emitted during the iteration and the successor state. -/
def rlStep (s : RLState) (b : Nat) : Bytes × RLState :=
  if b = s.b0 then
    -- flush a pending literal, folding its last byte into the new run
    let (out1, runLen1, literal1) :=
      if s.literal ≠ [] then
        let lit' := s.literal.dropLast
        (if lit' ≠ [] then (lit'.length - 1) :: lit' else [], 1, ([] : Bytes))
      else ([], s.runLen, s.literal)
    let runLen2 := runLen1 + 1
    if runLen2 ≥ 127 then
      (out1 ++ [(257 - runLen2) % 256, s.b0], ⟨s.b0, 0, literal1⟩)
    else
      (out1, ⟨s.b0, runLen2, literal1⟩)
  else
    -- close the open run (a 1-run becomes the start of a literal)
    let (out1, runLen1, literal1) :=
      if s.runLen > 0 then
        if s.runLen = 1 then (([] : Bytes), 0, [s.b0])
        else ([(257 - s.runLen) % 256, s.b0], 0, s.literal)
      else ([], s.runLen, s.literal)
    let literal2 := literal1 ++ [b]
    if literal2.length ≥ 127 then
      (out1 ++ (literal2.length - 1) :: literal2, ⟨b, runLen1, []⟩)
    else
      (out1, ⟨b, runLen1, literal2⟩)

/-- Flush after the input is exhausted (lines 1234–1241). -/
def rlFinish (s : RLState) : Bytes :=
  (if s.literal ≠ [] then (s.literal.length - 1) :: s.literal
   else if s.runLen > 0 then [(257 - s.runLen) % 256, s.b0]
   else []) ++ [128]

/-- The encoder loop over the remaining input. -/
def rlRun (s : RLState) : Bytes → Bytes
  | [] => rlFinish s
  | b :: rest =>
    let (out, s') := rlStep s b
    out ++ rlRun s' rest

/-- `RunLengthEncoder.EncodeBytes` (lines 1177–1242).  Note the early return:
empty input produces empty output (without the end-of-data marker). -/
def EncodeBytes (data : Bytes) : Except Err Bytes :=
  match data with
  | [] => .ok []
  | b0 :: rest => .ok (rlRun ⟨b0, 1, []⟩ rest)

end RunLengthEncoder

/-! ## ASCII hex encoder (part_000 lines 1255–1327) -/

namespace ASCIIHexEncoder

/-- One upper-case hex digit, as emitted by Go `fmt.Sprintf("%.2X", b)`. -/
def hexDigitUpper (d : Nat) : Nat := if d < 10 then 48 + d else 55 + d

/-- Numeric value of a hex digit character (Go `encoding/hex` accepts both
cases). -/
def hexVal (c : Nat) : Nat :=
  if 48 ≤ c ∧ c ≤ 57 then c - 48
  else if 97 ≤ c ∧ c ≤ 102 then c - 87
  else c - 55

/-- Is `c` one of `0-9 a-f A-F`? (line 1294) -/
def isHexChar (c : Nat) : Bool :=
  (97 ≤ c && c ≤ 102) || (65 ≤ c && c ≤ 70) || (48 ≤ c && c ≤ 57)

/-- The collection loop of `DecodeBytes` (lines 1283–1300): gather hex digits,
skip white space, stop at `>`, reject anything else; running out of input
before `>` is the `ReadByte` error. -/
def collectHex : Bytes → Except Err Bytes
  | [] => .error .eof
  | c :: rest =>
    if c = 62 then .ok []
    else if IsWhiteSpace c then collectHex rest
    else if isHexChar c then (c :: ·) <$> collectHex rest
    else .error .invalidHexChar

/-- Pairwise hex decoding (Go `hex.Decode` on the validated digit list). -/
def decodePairs : Bytes → Bytes
  | hi :: lo :: rest => (hexVal hi * 16 + hexVal lo) :: decodePairs rest
  | _ => []

/-- `ASCIIHexEncoder.DecodeBytes` (lines 1280–1311): collect digits up to `>`,
append a `0` digit if the count is odd, then decode pairs. -/
def DecodeBytes (encoded : Bytes) : Except Err Bytes := do
  let inb ← collectHex encoded
  let inb := if inb.length % 2 = 1 then inb ++ [48] else inb
  return decodePairs inb

/-- `ASCIIHexEncoder.EncodeBytes` (lines 1318–1327): `"%.2X "` per byte,
then `>`. -/
def EncodeBytes (data : Bytes) : Except Err Bytes :=
  .ok ((data.flatMap fun b => [hexDigitUpper (b / 16), hexDigitUpper (b % 16), 32]) ++ [62])

end ASCIIHexEncoder

/-! ## ASCII85 encoder (part_000 lines 1329–1497) -/

namespace ASCII85Encoder

/-- `base256Tobase85` (lines 1441–1454): the five base-85 digits of a 32-bit
value, most significant first (the source's loop with divider `85^(4-i)`,
unrolled). -/
def base256Tobase85 (v : Nat) : Bytes :=
  [v / 85 ^ 4, v / 85 ^ 3 % 85, v / 85 ^ 2 % 85, v / 85 % 85, v % 85]

/-- The encoder's 4-byte grouping loop (lines 1460–1492): each group becomes
`z` when its 32-bit value is zero, otherwise `n + 1` digit characters for a
group of `n` bytes (missing bytes read as zero). -/
def encodeGroup (b1 b2 b3 b4 n : Nat) : Bytes :=
  -- (b1<<24)|(b2<<16)|(b3<<8)|b4 on disjoint byte fields
  let base256 := b1 * 2 ^ 24 + b2 * 2 ^ 16 + b3 * 2 ^ 8 + b4
  if base256 = 0 then [122]
  else (base256Tobase85 base256).take (n + 1) |>.map (· + 33)

def encodeGroups : Bytes → Bytes
  | [] => []
  | [b1] => encodeGroup b1 0 0 0 1
  | [b1, b2] => encodeGroup b1 b2 0 0 2
  | [b1, b2, b3] => encodeGroup b1 b2 b3 0 3
  | b1 :: b2 :: b3 :: b4 :: rest => encodeGroup b1 b2 b3 b4 4 ++ encodeGroups rest

/-- `ASCII85Encoder.EncodeBytes` (lines 1457–1497): groups, then the `~>`
end-of-data marker. -/
def EncodeBytes (data : Bytes) : Except Err Bytes :=
  .ok (encodeGroups data ++ [126, 62])

/-- The decoder's inner loop (lines 1368–1402) starting at the current
position with the codes collected so far.  Returns the collected codes, the
`toWrite` count, the remaining input (the source's `i += j`), and the
end-of-data flag. -/
def collectGroup : Bytes → Bytes → Except Err (Bytes × Nat × Bytes × Bool)
  | inp, codes =>
    if codes.length ≥ 5 then .ok (codes, 4, inp, false)
    else
      match inp with
      | [] => .ok (codes, 4, [], false)
      | c :: rest =>
        if IsWhiteSpace c then collectGroup rest codes
        else if c = 126 ∧ rest.headD 0 = 62 ∧ rest ≠ [] then
          -- `~>`: toWrite = (j - spaces) - 1, clamped at 0 (Nat subtraction)
          .ok (codes, codes.length - 1, c :: rest, true)
        else if 33 ≤ c ∧ c ≤ 117 then
          collectGroup rest (codes ++ [c - 33])
        else if c = 122 ∧ codes = [] then
          .ok (codes, 4, rest, false)
        else .error .invalidCode

/-- The source's `codes` array after the inner loop and the `'u'` padding
loop (lines 1405–1409): positions filled by the loop keep their value,
positions from `toWrite + 1` on become 84, the rest keep the zero
initialisation. -/
def padCodes (codes : Bytes) (toWrite : Nat) : Bytes :=
  (List.range 5).map fun m =>
    if m < codes.length then codes.getD m 0
    else if toWrite + 1 ≤ m then 84 else 0

/-- The 32-bit group value (line 1412; `uint32` arithmetic wraps). -/
def groupValue (cf : Bytes) : Nat :=
  (cf.getD 0 0 * 85 ^ 4 + cf.getD 1 0 * 85 ^ 3 + cf.getD 2 0 * 85 ^ 2 +
     cf.getD 3 0 * 85 + cf.getD 4 0) % 2 ^ 32

/-- The four bytes of the group value (lines 1415–1419), big-endian. -/
def valueBytes (v : Nat) : Bytes :=
  [v / 2 ^ 24 % 256, v / 2 ^ 16 % 256, v / 2 ^ 8 % 256, v % 256]

/-- Termination measure fact for `decodeLoop`: the inner loop always
consumes input while the group is still open. -/
def collectGroup_consumed (inp codes cs : Bytes) (t : Nat) (rest : Bytes)
    (h : collectGroup inp codes = .ok (cs, t, rest, false)) :
    rest.length ≤ inp.length ∧
      (codes.length < 5 → inp ≠ [] → rest.length < inp.length) := by
  induction inp generalizing codes with
  | nil =>
    rw [collectGroup] at h
    split at h
    · simp_all [Except.ok.injEq]
    · simp only [Except.ok.injEq, Prod.mk.injEq] at h
      obtain ⟨-, -, h, -⟩ := h
      subst h; simp
  | cons c tail ih =>
    rw [collectGroup] at h
    split at h
    · simp only [Except.ok.injEq, Prod.mk.injEq] at h
      obtain ⟨-, -, h', -⟩ := h
      subst h'
      simp_all
    · split at h
      · have := ih _ h
        refine ⟨by simpa using Nat.le_succ_of_le this.1, fun _ _ => ?_⟩
        simp only [List.length_cons]
        omega
      · split at h
        · exact absurd h (by simp)
        · split at h
          · have := ih _ h
            refine ⟨by simpa using Nat.le_succ_of_le this.1, fun _ _ => ?_⟩
            simp only [List.length_cons]
            omega
          · split at h
            · simp only [Except.ok.injEq, Prod.mk.injEq] at h
              obtain ⟨-, -, h', -⟩ := h
              subst h'
              simp
            · exact absurd h (by simp)

/-- The decoder's outer loop (lines 1360–1424), fuelled so that concrete
runs evaluate in the kernel; `collectGroup_consumed` shows one unit of fuel
per input byte is enough. -/
def decodeLoop : Nat → Bytes → Except Err Bytes
  | _, [] => .ok []
  | 0, _ :: _ => .error .outOfFuel  -- unreachable when the fuel covers the length
  | fuel + 1, c :: inp =>
    match collectGroup (c :: inp) [] with
    | .error e => .error e
    | .ok (codes, toWrite, rest, eod) =>
      let decodedBytes := valueBytes (groupValue (padCodes codes toWrite))
      if eod then .ok (decodedBytes.take toWrite)
      else
        match decodeLoop fuel rest with
        | .error e => .error e
        | .ok tail => .ok (decodedBytes.take toWrite ++ tail)

/-- `ASCII85Encoder.DecodeBytes` (lines 1355–1430). -/
def DecodeBytes (encoded : Bytes) : Except Err Bytes :=
  decodeLoop encoded.length encoded

end ASCII85Encoder

/-! ## MD5 (Go `crypto/md5`, RFC 1321), implemented concretely -/

namespace MD5

/-- Round constants `floor(abs(sin(i + 1)) * 2^32)`. -/
def K : List Nat :=
  [0xd76aa478, 0xe8c7b756, 0x242070db, 0xc1bdceee,
   0xf57c0faf, 0x4787c62a, 0xa8304613, 0xfd469501,
   0x698098d8, 0x8b44f7af, 0xffff5bb1, 0x895cd7be,
   0x6b901122, 0xfd987193, 0xa679438e, 0x49b40821,
   0xf61e2562, 0xc040b340, 0x265e5a51, 0xe9b6c7aa,
   0xd62f105d, 0x02441453, 0xd8a1e681, 0xe7d3fbc8,
   0x21e1cde6, 0xc33707d6, 0xf4d50d87, 0x455a14ed,
   0xa9e3e905, 0xfcefa3f8, 0x676f02d9, 0x8d2a4c8a,
   0xfffa3942, 0x8771f681, 0x6d9d6122, 0xfde5380c,
   0xa4beea44, 0x4bdecfa9, 0xf6bb4b60, 0xbebfbc70,
   0x289b7ec6, 0xeaa127fa, 0xd4ef3085, 0x04881d05,
   0xd9d4d039, 0xe6db99e5, 0x1fa27cf8, 0xc4ac5665,
   0xf4292244, 0x432aff97, 0xab9423a7, 0xfc93a039,
   0x655b59c3, 0x8f0ccc92, 0xffeff47d, 0x85845dd1,
   0x6fa87e4f, 0xfe2ce6e0, 0xa3014314, 0x4e0811a1,
   0xf7537e82, 0xbd3af235, 0x2ad7d2bb, 0xeb86d391]

/-- Per-round left-rotation amounts. -/
def S : List Nat :=
  [7, 12, 17, 22, 7, 12, 17, 22, 7, 12, 17, 22, 7, 12, 17, 22,
   5, 9, 14, 20, 5, 9, 14, 20, 5, 9, 14, 20, 5, 9, 14, 20,
   4, 11, 16, 23, 4, 11, 16, 23, 4, 11, 16, 23, 4, 11, 16, 23,
   6, 10, 15, 21, 6, 10, 15, 21, 6, 10, 15, 21, 6, 10, 15, 21]

/-- 32-bit left rotation (inputs kept below `2^32`). -/
def rotl32 (x n : Nat) : Nat := (x <<< n + x >>> (32 - n)) % 2 ^ 32

/-- 32-bit complement for `x < 2^32`. -/
def not32 (x : Nat) : Nat := 2 ^ 32 - 1 - x

/-- The 16 little-endian message words of a 64-byte chunk. -/
def chunkWords (chunk : Bytes) : List Nat :=
  (List.range 16).map fun j =>
    chunk.getD (4 * j) 0 + chunk.getD (4 * j + 1) 0 * 2 ^ 8 +
      chunk.getD (4 * j + 2) 0 * 2 ^ 16 + chunk.getD (4 * j + 3) 0 * 2 ^ 24

/-- One of the 64 mixing steps. -/
def step (M : List Nat) (st : Nat × Nat × Nat × Nat) (i : Nat) :
    Nat × Nat × Nat × Nat :=
  let (A, B, C, D) := st
  let (F, g) :=
    if i < 16 then ((B &&& C) ||| (not32 B &&& D), i)
    else if i < 32 then ((D &&& B) ||| (not32 D &&& C), (5 * i + 1) % 16)
    else if i < 48 then (B ^^^ C ^^^ D, (3 * i + 5) % 16)
    else (C ^^^ (B ||| not32 D), (7 * i) % 16)
  let F := (F + A + K.getD i 0 + M.getD g 0) % 2 ^ 32
  (D, (B + rotl32 F (S.getD i 0)) % 2 ^ 32, B, C)

/-- Process one 64-byte chunk. -/
def processChunk (st : Nat × Nat × Nat × Nat) (chunk : Bytes) :
    Nat × Nat × Nat × Nat :=
  let M := chunkWords chunk
  let (A, B, C, D) := (List.range 64).foldl (step M) st
  ((st.1 + A) % 2 ^ 32, (st.2.1 + B) % 2 ^ 32,
   (st.2.2.1 + C) % 2 ^ 32, (st.2.2.2 + D) % 2 ^ 32)

/-- Split into 64-byte chunks (the padded message length is a multiple of
64); fuelled with one unit per byte so that concrete digests evaluate in
the kernel. -/
def chunks64Go : Nat → Bytes → List Bytes
  | _, [] => []
  | 0, _ :: _ => []  -- unreachable when the fuel covers the length
  | fuel + 1, msg => msg.take 64 :: chunks64Go fuel (msg.drop 64)

def chunks64 (msg : Bytes) : List Bytes := chunks64Go msg.length msg

/-- Merkle–Damgård padding: `0x80`, zeros to 56 mod 64, 8-byte LE bit length. -/
def pad (msg : Bytes) : Bytes :=
  let zeros := (55 + 64 - msg.length % 64) % 64
  let bitLen := 8 * msg.length % 2 ^ 64
  msg ++ 128 :: List.replicate zeros 0 ++
    (List.range 8).map fun j => bitLen / 2 ^ (8 * j) % 256

/-- Four little-endian bytes of a 32-bit word. -/
def word32LE (w : Nat) : Bytes :=
  [w % 256, w / 2 ^ 8 % 256, w / 2 ^ 16 % 256, w / 2 ^ 24 % 256]

/-- The 16-byte MD5 digest. -/
def md5 (msg : Bytes) : Bytes :=
  let (a, b, c, d) :=
    (chunks64 (pad msg)).foldl processChunk
      (0x67452301, 0xefcdab89, 0x98badcfe, 0x10325476)
  word32LE a ++ word32LE b ++ word32LE c ++ word32LE d

end MD5

export MD5 (md5)

/-! ## RC4 (Go `crypto/rc4`), implemented concretely -/

namespace RC4

/-- Key-scheduling: permute `0..255` driven by the key bytes. -/
def ksa (key : Bytes) : List Nat :=
  let f := fun (sj : List Nat × Nat) (i : Nat) =>
    let (s, j) := sj
    let j' := (j + s.getD i 0 + key.getD (i % key.length) 0) % 256
    let a := s.getD i 0
    let b := s.getD j' 0
    ((s.set i b).set j' a, j')
  ((List.range 256).foldl f (List.range 256, 0)).1

/-- The generation loop: one keystream byte XORed onto each data byte. -/
def prga (s0 : List Nat) (data : Bytes) : Bytes :=
  let f := fun (st : List Nat × Nat × Nat × Bytes) (b : Nat) =>
    let (s, i, j, acc) := st
    let i' := (i + 1) % 256
    let j' := (j + s.getD i' 0) % 256
    let a := s.getD i' 0
    let c := s.getD j' 0
    let s' := (s.set i' c).set j' a
    let k := s'.getD ((s'.getD i' 0 + s'.getD j' 0) % 256) 0
    (s', i', j', acc ++ [b ^^^ k])
  (data.foldl f (s0, 0, 0, [])).2.2.2

/-- `rc4.NewCipher` + `XORKeyStream`: en/decrypt `data` under `key`
(`KeySizeError` outside 1..256). -/
def cipher (key data : Bytes) : Except Err Bytes :=
  if key.length < 1 ∨ key.length > 256 then .error .rc4KeySize
  else .ok (prga (ksa key) data)

end RC4

/-! ## External primitives

The Go standard-library and x/image primitives used by the repository are
not repository code; the embedding abstracts them as a parameter pack and
theorems add only their documented contracts as hypotheses. -/

structure ExtPrims where
  sha256 : Bytes → Bytes
  sha384 : Bytes → Bytes
  sha512 : Bytes → Bytes
  /-- AES block encryption: 16/24/32-byte key, 16-byte block in and out. -/
  aesEncBlock : Bytes → Bytes → Bytes
  /-- AES block decryption. -/
  aesDecBlock : Bytes → Bytes → Bytes
  /-- `zlib.NewWriter` + `Write` + `Close`. -/
  deflate : Bytes → Bytes
  /-- `zlib.NewReader` + `ReadFrom` (reader construction can fail). -/
  inflate : Bytes → Except Err Bytes
  /-- `compress/lzw` writer, MSB, 8 (the postponed, EarlyChange=0 dialect). -/
  lzwComp0 : Bytes → Bytes
  /-- `compress/lzw` reader (EarlyChange=0). -/
  lzwDec0 : Bytes → Except Err Bytes
  /-- `x/image/tiff/lzw` reader (EarlyChange=1). -/
  lzwDec1 : Bytes → Except Err Bytes
  /-- `crypto/rand` stand-in: `n` random bytes. -/
  randBytes : Nat → Bytes

/-- `aes.NewCipher` accepts 16-, 24-, or 32-byte keys. -/
def aesKeyOk (key : Bytes) : Bool :=
  key.length == 16 || key.length == 24 || key.length == 32

/-- Bytewise XOR (CBC chaining). -/
def xorBytes (a b : Bytes) : Bytes := List.zipWith (· ^^^ ·) a b

/-- `cipher.NewCBCEncrypter` + `CryptBlocks` (external `crypto/cipher`,
modelled blockwise over the block primitive), fuelled with one unit per
byte. -/
def cbcEncryptGo (P : ExtPrims) (key : Bytes) : Nat → Bytes → Bytes → Bytes
  | 0, _, _ => []  -- unreachable when the fuel covers the length
  | fuel + 1, iv, data =>
    if data.length < 16 then []
    else
      let blk := P.aesEncBlock key (xorBytes iv (data.take 16))
      blk ++ cbcEncryptGo P key fuel blk (data.drop 16)

def cbcEncrypt (P : ExtPrims) (key iv data : Bytes) : Bytes :=
  cbcEncryptGo P key data.length iv data

/-- `cipher.NewCBCDecrypter` + `CryptBlocks`. -/
def cbcDecryptGo (P : ExtPrims) (key : Bytes) : Nat → Bytes → Bytes → Bytes
  | 0, _, _ => []  -- unreachable when the fuel covers the length
  | fuel + 1, iv, data =>
    if data.length < 16 then []
    else
      xorBytes iv (P.aesDecBlock key (data.take 16)) ++
        cbcDecryptGo P key fuel (data.take 16) (data.drop 16)

def cbcDecrypt (P : ExtPrims) (key iv data : Bytes) : Bytes :=
  cbcDecryptGo P key data.length iv data

/-- `newECBDecrypter` — Modelled from the spec: the ECB-mode wrapper around
the block cipher is a repository utility whose file is not among the given
sources; the spec describes it as blockwise application of the block
cipher. -/
def ecbDecryptGo (P : ExtPrims) (key : Bytes) : Nat → Bytes → Bytes
  | 0, _ => []  -- unreachable when the fuel covers the length
  | fuel + 1, data =>
    if data.length < 16 then []
    else P.aesDecBlock key (data.take 16) ++ ecbDecryptGo P key fuel (data.drop 16)

def ecbDecrypt (P : ExtPrims) (key data : Bytes) : Bytes :=
  ecbDecryptGo P key data.length data

/-! ## Predictor row transforms (shared shape of the flate/LZW decode paths) -/

/-- Split into rows of `n` bytes (the Go row loops run `len / n` times over
inputs already checked to be exact multiples of `n`), fuelled with one unit
per byte. -/
def splitRowsGo (n : Nat) : Nat → Bytes → List Bytes
  | _, [] => []
  | 0, _ :: _ => []  -- unreachable when the fuel covers the length
  | fuel + 1, data =>
    if n = 0 then []
    else data.take n :: splitRowsGo n fuel (data.drop n)

def splitRows (n : Nat) (data : Bytes) : List Bytes :=
  splitRowsGo n data.length data

/-- PNG sub filter, encode direction (part_000 lines 426–434): first byte
kept, then left differences mod 256. -/
def pngSubRowEncode : Bytes → Bytes
  | [] => []
  | r0 :: rs =>
    let rec go (prev : Nat) : Bytes → Bytes
      | [] => []
      | r :: rs => (r + 256 - prev) % 256 :: go r rs
    r0 :: go r0 rs

/-- PNG sub filter, decode direction (lines 336–339): the in-place loop from
`j = 2` leaves position 1 alone and accumulates left sums mod 256. -/
def pngSubRowDecode : Bytes → Bytes
  | [] => []
  | t0 :: ts =>
    let rec go (prev : Nat) : Bytes → Bytes
      | [] => []
      | t :: ts => ((t + prev) % 256) :: go ((t + prev) % 256) ts
    t0 :: go t0 ts

/-- PNG up filter, decode (lines 341–344): add the byte above. -/
def pngUpRowDecode (prevTail rdata : Bytes) : Bytes :=
  List.zipWith (fun t p => (t + p) % 256) rdata prevTail

/-- PNG average filter, decode (lines 345–354).  `j = 1` adds only the byte
above; later positions add `(left + above) / 2` where `left + above` is Go
byte addition (wrapping). -/
def pngAvgRowDecode (prevTail rdata : Bytes) : Bytes :=
  let rec go (left : Nat) : Bytes → Bytes → Bytes
    | t :: ts, p :: ps =>
      let v := (t + ((left + p) % 256) / 2) % 256
      v :: go v ts ps
    | ts, _ => ts
  match rdata, prevTail with
  | t1 :: ts, p1 :: ps => ((t1 + p1) % 256) :: go ((t1 + p1) % 256) ts ps
  | rd, _ => rd

/-- PNG Paeth filter, decode (lines 355–378).  Go computes `p = a + b - c`
in byte arithmetic (wrapping), then compares absolute distances as ints. -/
def pngPaethRowDecode (prevTail rdata : Bytes) : Bytes :=
  let rec go (a : Nat) : Bytes → Bytes → Bytes
    | t :: ts, c :: rest =>
      let b := rest.headD 0
      let p := (a + b + 256 - c) % 256
      let pa := ((p : Int) - a).natAbs
      let pb := ((p : Int) - b).natAbs
      let pc := ((p : Int) - c).natAbs
      let v :=
        if pa ≤ pb ∧ pa ≤ pc then (t + a) % 256
        else if pb ≤ pc then (t + b) % 256
        else (t + c) % 256
      v :: go v ts rest
    | ts, _ => ts
  match rdata with
  | t1 :: ts => t1 :: go t1 ts prevTail
  | [] => []

/-- TIFF predictor, decode (lines 293–301): in-place column sums with stride
`colors`, starting at index `colors`. -/
def tiffRowDecode (colors : Nat) (row : Bytes) : Bytes :=
  go row.length colors row
where
  go : Nat → Nat → Bytes → Bytes
    | 0, _, row => row
    | fuel + 1, j, row =>
      if j < row.length then
        go fuel (j + 1)
          (row.set j ((row.getD j 0 + row.getD (j - colors) 0) % 256))
      else row

/-- The TIFF decode loop over rows. -/
def tiffDecodeRows (colors rowLength : Nat) (data : Bytes) : Bytes :=
  ((splitRows rowLength data).map (tiffRowDecode colors)).flatten

/-- One PNG row of the flate decode path (lines 328–388): dispatch on the
indicator byte; rejects indicators above 4. -/
def pngDecodeRowFlate (prevRow row : Bytes) : Except Err Bytes :=
  match row with
  | [] => .ok []
  | fb :: rdata =>
    if fb = 0 then .ok (fb :: rdata)
    else if fb = 1 then .ok (fb :: pngSubRowDecode rdata)
    else if fb = 2 then .ok (fb :: pngUpRowDecode (prevRow.drop 1) rdata)
    else if fb = 3 then .ok (fb :: pngAvgRowDecode (prevRow.drop 1) rdata)
    else if fb = 4 then .ok (fb :: pngPaethRowDecode (prevRow.drop 1) rdata)
    else .error .invalidFilterByte

/-- The PNG decode loop over rows (flate variant), threading the previous
decoded row and dropping the indicator byte from the output. -/
def pngDecodeRowsFlate (rowLength : Nat) (data : Bytes) : Except Err Bytes :=
  go (List.replicate rowLength 0) (splitRows rowLength data)
where
  go (prevRow : Bytes) : List Bytes → Except Err Bytes
    | [] => .ok []
    | r :: rs => do
      let r' ← pngDecodeRowFlate prevRow r
      let tail ← go r' rs
      return r'.drop 1 ++ tail

/-- One PNG row of the LZW decode path (lines 735–755): only indicators
0, 1, 2 are handled. -/
def pngDecodeRowLZW (prevRow row : Bytes) : Except Err Bytes :=
  match row with
  | [] => .ok []
  | fb :: rdata =>
    if fb = 0 then .ok (fb :: rdata)
    else if fb = 1 then .ok (fb :: pngSubRowDecode rdata)
    else if fb = 2 then .ok (fb :: pngUpRowDecode (prevRow.drop 1) rdata)
    else .error .invalidFilterByte

/-- The PNG decode loop over rows (LZW variant). -/
def pngDecodeRowsLZW (rowLength : Nat) (data : Bytes) : Except Err Bytes :=
  go (List.replicate rowLength 0) (splitRows rowLength data)
where
  go (prevRow : Bytes) : List Bytes → Except Err Bytes
    | [] => .ok []
    | r :: rs => do
      let r' ← pngDecodeRowLZW prevRow r
      let tail ← go r' rs
      return r'.drop 1 ++ tail

/-! ## Flate encoder (part_000 lines 66–446)

Predictor/Columns/Colors/BitsPerComponent are Go `int`s; the embedding uses
`Nat` (the claims concern the documented non-negative parameter ranges). -/

structure FlateEncoder where
  Predictor : Nat
  BitsPerComponent : Nat
  Columns : Nat
  Colors : Nat
  deriving Repr

namespace FlateEncoder

/-- `NewFlateEncoder` (lines 76–89). -/
def new : FlateEncoder := ⟨1, 8, 1, 1⟩

/-- `FlateEncoder.EncodeBytes` (lines 402–446).  Predictor 11 first emits
PNG-sub-filtered rows of `Columns` bytes (`Colors` is ignored on this path);
`rows := len(data) / rowLength` panics in Go when `Columns = 0`. -/
def EncodeBytes (P : ExtPrims) (enc : FlateEncoder) (data : Bytes) :
    Except Err Bytes := do
  if enc.Predictor ≠ 1 ∧ enc.Predictor ≠ 11 then
    throw .unsupportedEncodingParameters
  let data ←
    if enc.Predictor = 11 then do
      let rowLength := enc.Columns
      if rowLength = 0 then throw .runtimePanic
      if data.length % rowLength ≠ 0 then throw .invalidRowLength
      pure (((splitRows rowLength data).map fun r => 1 :: pngSubRowEncode r).flatten)
    else pure data
  return P.deflate data

/-- `FlateEncoder.DecodeBytes` (lines 228–247): plain zlib inflate. -/
def DecodeBytes (P : ExtPrims) (_enc : FlateEncoder) (encoded : Bytes) :
    Except Err Bytes := P.inflate encoded

/-- `FlateEncoder.DecodeStream` (lines 250–399): inflate, then reverse the
predictor.  The stream dictionary itself is not consulted. -/
def DecodeStream (P : ExtPrims) (enc : FlateEncoder) (stream : Bytes) :
    Except Err Bytes := do
  if enc.BitsPerComponent ≠ 8 then throw .invalidBitsPerComponent
  let outData ← P.inflate stream
  if enc.Predictor > 1 then
    if enc.Predictor = 2 then
      let rowLength := enc.Columns * enc.Colors
      if rowLength < 1 then return []
      if outData.length % rowLength ≠ 0 then throw .invalidRowLength
      if rowLength % enc.Colors ≠ 0 then throw .invalidRowLength
      if rowLength > outData.length then throw .rangeCheck
      return tiffDecodeRows enc.Colors rowLength outData
    else if 10 ≤ enc.Predictor ∧ enc.Predictor ≤ 15 then
      let rowLength := enc.Columns * enc.Colors + 1
      if outData.length % rowLength ≠ 0 then throw .invalidRowLength
      if rowLength > outData.length then throw .rangeCheck
      pngDecodeRowsFlate rowLength outData
    else throw .unsupportedPredictor
  else return outData

end FlateEncoder

/-! ## LZW encoder (part_000 lines 448–792) -/

structure LZWEncoder where
  Predictor : Nat
  BitsPerComponent : Nat
  Columns : Nat
  Colors : Nat
  EarlyChange : Nat
  deriving Repr

namespace LZWEncoder

/-- `NewLZWEncoder` (lines 460–474): note the EarlyChange default of 1. -/
def new : LZWEncoder := ⟨1, 8, 1, 1, 1⟩

/-- `LZWEncoder.DecodeBytes` (lines 626–646): reader choice by dialect. -/
def DecodeBytes (P : ExtPrims) (enc : LZWEncoder) (encoded : Bytes) :
    Except Err Bytes :=
  if enc.EarlyChange = 1 then P.lzwDec1 encoded else P.lzwDec0 encoded

/-- `LZWEncoder.DecodeStream` (lines 648–771). -/
def DecodeStream (P : ExtPrims) (enc : LZWEncoder) (stream : Bytes) :
    Except Err Bytes := do
  let outData ← DecodeBytes P enc stream
  if enc.Predictor > 1 then
    if enc.Predictor = 2 then
      let rowLength := enc.Columns * enc.Colors
      if rowLength < 1 then return []
      if outData.length % rowLength ≠ 0 then throw .invalidRowLength
      if rowLength % enc.Colors ≠ 0 then throw .invalidRowLength
      if rowLength > outData.length then throw .rangeCheck
      return tiffDecodeRows enc.Colors rowLength outData
    else if 10 ≤ enc.Predictor ∧ enc.Predictor ≤ 15 then
      let rowLength := enc.Columns * enc.Colors + 1
      if rowLength < 1 then return []
      if outData.length % rowLength ≠ 0 then throw .invalidRowLength
      if rowLength > outData.length then throw .rangeCheck
      pngDecodeRowsLZW rowLength outData
    else throw .unsupportedPredictor
  else return outData

/-- `LZWEncoder.EncodeBytes` (lines 777–792): only `Predictor = 1` and
`EarlyChange = 0` are supported. -/
def EncodeBytes (P : ExtPrims) (enc : LZWEncoder) (data : Bytes) :
    Except Err Bytes := do
  if enc.Predictor ≠ 1 then throw .lzwPredictorUnsupported
  if enc.EarlyChange = 1 then throw .lzwEarlyChangeUnsupported
  return P.lzwComp0 data

end LZWEncoder

/-! ## Document security layer (`src/pdf/core/crypt.go`) -/

/-- Go slice `xs[a:b]`. -/
def slice (xs : Bytes) (a b : Nat) : Bytes := (xs.take b).drop a

/-- Bit `k` of a Go `int` in two's complement (`P & (1 << k) > 0`). -/
def intBit (p : Int) (k : Nat) : Bool := ((p % 2 ^ 64).toNat).testBit k

/-- `CryptFilter` (crypt.go lines 81–84). -/
structure CryptFilter where
  Cfm : String
  Length : Nat
  deriving Repr, DecidableEq

/-- `PdfCrypt` (lines 29–55); the parser handle and the memoisation maps are
not part of the value (the walker threads its own state), and the claims do
not consume `Authenticated`. -/
structure PdfCrypt where
  V : Nat
  R : Nat
  Length : Nat
  O : Bytes
  U : Bytes
  OE : Bytes
  UE : Bytes
  P : Int
  Perms : Bytes
  EncryptMetadata : Bool
  Id0 : Bytes
  EncryptionKey : Bytes
  CryptFilters : List (String × CryptFilter)
  StreamFilter : String
  StringFilter : String
  deriving Repr

/-- `AccessPermissions` (lines 57–73). -/
structure AccessPermissions where
  Printing : Bool := false
  Modify : Bool := false
  ExtractGraphics : Bool := false
  Annotate : Bool := false
  FillForms : Bool := false
  DisabilityExtract : Bool := false
  RotateInsert : Bool := false
  FullPrintQuality : Bool := false
  deriving Repr, DecidableEq

/-- The record with every permission granted (owner rights). -/
def fullPermissions : AccessPermissions :=
  ⟨true, true, true, true, true, true, true, true⟩

/-- The 32-byte password pad (lines 75–77). -/
def padding : Bytes :=
  [0x28, 0xBF, 0x4E, 0x5E, 0x4E, 0x75, 0x8A, 0x41, 0x64, 0x00, 0x4E, 0x56,
   0xFF, 0xFA, 0x01, 0x08, 0x2E, 0x2E, 0x00, 0xB6, 0xD0, 0x68, 0x3E, 0x80,
   0x2F, 0x0C, 0xA9, 0xFE, 0x64, 0x53, 0x69, 0x7A]

namespace PdfCrypt

/-- `GetAccessPermissions` (lines 374–403): decode the P bit-field. -/
def GetAccessPermissions (crypt : PdfCrypt) : AccessPermissions :=
  { Printing := intBit crypt.P 2
    Modify := intBit crypt.P 3
    ExtractGraphics := intBit crypt.P 4
    Annotate := intBit crypt.P 5
    FillForms := intBit crypt.P 8
    DisabilityExtract := intBit crypt.P 9
    RotateInsert := intBit crypt.P 10
    FullPrintQuality := intBit crypt.P 11 }

/-- `paddedPass` (lines 543–558). -/
def paddedPass (pass : Bytes) : Bytes :=
  if pass.length ≥ 32 then pass.take 32
  else pass ++ padding.take (32 - pass.length)

/-- `makeKey` (lines 562–605): the per-object key. -/
def makeKey (crypt : PdfCrypt) (filter : String) (objNum genNum : Nat)
    (ekey : Bytes) : Except Err Bytes := do
  let some cf := crypt.CryptFilters.lookup filter
    | throw .unsupportedCryptFilter
  if cf.Cfm = "AESV3" then return ekey
  let isAES2 := cf.Cfm = "AESV2"
  let key := ekey ++
    ((List.range 3).map fun i => objNum / 2 ^ (8 * i) % 256) ++
    ((List.range 2).map fun i => genNum / 2 ^ (8 * i) % 256)
  let key := if isAES2 then key ++ [0x73, 0x41, 0x6C, 0x54] else key
  let hashb := md5 key
  if ekey.length + 5 < 16 then return hashb.take (ekey.length + 5)
  return hashb

/-- `decryptBytes` (lines 620–702): RC4 or AES-CBC with leading IV;
PKCS#5 padding stripped for AESV2 only. -/
def decryptBytes (P : ExtPrims) (crypt : PdfCrypt) (buf : Bytes)
    (filter : String) (okey : Bytes) : Except Err Bytes := do
  let some cf := crypt.CryptFilters.lookup filter
    | throw .unsupportedCryptFilter
  if cf.Cfm = "V2" then
    RC4.cipher okey buf
  else if cf.Cfm = "AESV2" ∨ cf.Cfm = "AESV3" then do
    if ¬aesKeyOk okey then throw .aesKeySize
    if buf.length < 16 then throw .aesShortBuf
    let iv := buf.take 16
    let buf := buf.drop 16
    if buf.length % 16 ≠ 0 then throw .aesBlockAlign
    let buf := cbcDecrypt P okey iv buf
    if buf.length = 0 then return buf
    if cf.Cfm = "AESV2" then
      let padLen := buf.getLastD 0
      if padLen ≥ buf.length then throw .aesPadLength
      return buf.take (buf.length - padLen)
    return buf
  else throw .unsupportedCryptMethod

/-- `encryptBytes` (lines 883–953). -/
def encryptBytes (P : ExtPrims) (crypt : PdfCrypt) (buf : Bytes)
    (filter : String) (okey : Bytes) : Except Err Bytes := do
  let some cf := crypt.CryptFilters.lookup filter
    | throw .unsupportedCryptFilter
  if cf.Cfm = "V2" then
    RC4.cipher okey buf
  else if cf.Cfm = "AESV2" ∨ cf.Cfm = "AESV3" then do
    if ¬aesKeyOk okey then throw .aesKeySize
    let buf :=
      if cf.Cfm = "AESV2" then
        let pad := 16 - buf.length % 16
        buf ++ List.replicate pad pad
      else buf
    let iv := P.randBytes 16
    return iv ++ cbcEncrypt P okey iv buf
  else throw .unsupportedCryptMethod

/-- `Alg2` (lines 1312–1353): document key from the (padded) user password. -/
def Alg2 (crypt : PdfCrypt) (pass : Bytes) : Bytes :=
  let pUint32 := (crypt.P % 2 ^ 32).toNat
  let pb := (List.range 4).map fun i => pUint32 / 2 ^ (8 * i) % 256
  let msg := paddedPass pass ++ crypt.O ++ pb ++ crypt.Id0 ++
    (if crypt.R ≥ 4 ∧ ¬crypt.EncryptMetadata then [0xff, 0xff, 0xff, 0xff] else [])
  let hashb := md5 msg
  if crypt.R ≥ 3 then
    let hashb := (List.range 50).foldl (fun h _ => md5 (h.take (crypt.Length / 8))) hashb
    hashb.take (crypt.Length / 8)
  else hashb.take 5

/-- `alg3Key` (lines 1356–1376): the RC4 key of the owner-password path.  The
Go loop rehashes the full 16-byte digest 50 times and the final `Sum` adds
one more application. -/
def alg3Key (crypt : PdfCrypt) (pass : Bytes) : Bytes :=
  let okey := paddedPass pass
  let encKey :=
    if crypt.R ≥ 3 then (List.range 51).foldl (fun h _ => md5 h) okey
    else md5 okey
  if crypt.R = 2 then encKey.take 5 else encKey.take (crypt.Length / 8)

/-- `Alg4` (lines 1420–1435): `U` for R=2.  Returns the `U` value and the
document key. -/
def Alg4 (crypt : PdfCrypt) (upass : Bytes) : Except Err (Bytes × Bytes) := do
  let ekey := Alg2 crypt upass
  let encrypted ← RC4.cipher ekey padding
  return (encrypted, ekey)

/-- `Alg5` (lines 1439–1499): `U` for R≥3 (last 16 bytes random). -/
def Alg5 (P : ExtPrims) (crypt : PdfCrypt) (upass : Bytes) :
    Except Err (Bytes × Bytes) := do
  let ekey := Alg2 crypt upass
  let hash := md5 (padding ++ crypt.Id0)
  let encrypted ← RC4.cipher ekey hash
  let encrypted ← (List.range 19).foldlM (fun enc i => do
    let ekey2 := ekey.map (· ^^^ (i + 1))
    RC4.cipher ekey2 enc) encrypted
  return (encrypted.take 16 ++ P.randBytes 16, ekey)

/-- `Alg6` (lines 1503–1540): authenticate the user password; R≥3 compares
only the first 16 bytes. -/
def Alg6 (P : ExtPrims) (crypt : PdfCrypt) (upass : Bytes) :
    Except Err Bool := do
  let (uo, _key) ←
    if crypt.R = 2 then Alg4 crypt upass
    else if crypt.R ≥ 3 then Alg5 P crypt upass
    else throw .invalidR
  let uGen := if crypt.R ≥ 3 then uo.take 16 else uo
  let uDoc := if crypt.R ≥ 3 then crypt.U.take 16 else crypt.U
  return uGen = uDoc

/-- `Alg7` (lines 1544–1579): authenticate the owner password by recovering
the user password; errors from the inner `Alg6` are swallowed. -/
def Alg7 (P : ExtPrims) (crypt : PdfCrypt) (opass : Bytes) :
    Except Err Bool := do
  let encKey := alg3Key crypt opass
  let decrypted ←
    if crypt.R = 2 then RC4.cipher encKey crypt.O
    else if crypt.R ≥ 3 then
      (List.range 20).foldlM (fun s i => do
        let newKey := encKey.map (· ^^^ (19 - i))
        RC4.cipher newKey s) crypt.O
    else throw .invalidR
  match Alg6 P crypt decrypted with
  | .error _ => return false
  | .ok auth => return auth

/-- `alg2b_R5` (lines 1215–1219). -/
def alg2b_R5 (P : ExtPrims) (data : Bytes) : Bytes := P.sha256 data

/-- One round of Algorithm 2.B (lines 1246–1295): repeat `pwd ‖ K ‖ userKey`
64 times, AES-128-CBC encrypt with key `K[0:16]`, IV `K[16:32]`, pick the
next hash from the first 16 bytes mod 3, and rehash.  Returns `(E, K')`. -/
def alg2bRound (P : ExtPrims) (pwd userKey K : Bytes) : Bytes × Bytes :=
  let part := pwd ++ K ++ userKey
  let K1 := (List.replicate 64 part).flatten
  let E := cbcEncrypt P (K.take 16) (slice K 16 32) K1
  let b := ((E.take 16).map (· % 3)).sum
  let K' :=
    match b % 3 with
    | 0 => P.sha256 E
    | 1 => P.sha384 E
    | _ => P.sha512 E
  (E, K')

/-- The iteration of Algorithm 2.B (lines 1297–1306): increment `i` after
the round and stop once `i ≥ 64` and the last byte of `E` is at most
`i - 32`.  The fuel of 287 covers every byte-valued `E` (see `c6`). -/
def alg2bLoop (P : ExtPrims) (pwd userKey : Bytes) :
    Nat → Nat → Bytes → Option Bytes
  | 0, _, _ => none
  | fuel + 1, i, K =>
    let (E, K') := alg2bRound P pwd userKey K
    let b := E.getLastD 0
    let i' := i + 1
    if i' ≥ 64 ∧ b ≤ i' - 32 then some (K'.take 32)
    else alg2bLoop P pwd userKey fuel i' K'

/-- `alg2b` for R=6 (lines 1233–1308). -/
def alg2bR6 (P : ExtPrims) (data pwd userKey : Bytes) : Bytes :=
  (alg2bLoop P pwd userKey 287 0 (P.sha256 data)).getD []

/-- The `alg2b` dispatcher (lines 1205–1210). -/
def alg2b (P : ExtPrims) (crypt : PdfCrypt) (data pwd userKey : Bytes) :
    Bytes :=
  if crypt.R = 5 then alg2b_R5 P data else alg2bR6 P data pwd userKey

/-- `alg11` (lines 1582–1593): user-password hash check for R≥5; empty
result means mismatch. -/
def alg11 (P : ExtPrims) (crypt : PdfCrypt) (upass : Bytes) : Bytes :=
  let str := upass ++ slice crypt.U 32 40
  let h := (alg2b P crypt str upass []).take 32
  if h = crypt.U.take 32 then h else []

/-- `alg12` (lines 1597–1609): owner-password hash check for R≥5. -/
def alg12 (P : ExtPrims) (crypt : PdfCrypt) (opass : Bytes) : Bytes :=
  let str := opass ++ slice crypt.O 32 40 ++ crypt.U.take 48
  let h := (alg2b P crypt str opass (crypt.U.take 48)).take 32
  if h = crypt.O.take 32 then h else []

/-- Signed 32-bit little-endian read (Go `int32(binary.LittleEndian.Uint32)`). -/
def int32LE (bs : Bytes) : Int :=
  let v : Nat := bs.getD 0 0 + bs.getD 1 0 * 2 ^ 8 + bs.getD 2 0 * 2 ^ 16 +
    bs.getD 3 0 * 2 ^ 24
  if v < 2 ^ 31 then (v : Int) else (v : Int) - 2 ^ 32

/-- `alg13` (lines 1613–1631): validate `Perms` against `P` for R=6; the
`aes.NewCipher` panic on a bad key length is modelled as an error. -/
def alg13 (P : ExtPrims) (crypt : PdfCrypt) (fkey : Bytes) :
    Except Err Bool := do
  let perms := crypt.Perms.take 16
  if ¬aesKeyOk (fkey.take 32) then throw .aesKeySize
  let perms := ecbDecrypt P (fkey.take 32) perms
  if slice perms 9 12 ≠ [97, 100, 98] then throw .permsInvalid
  if int32LE (perms.take 4) ≠ crypt.P then throw .permsMismatch
  return true

/-- `alg2a` (lines 1123–1202): R≥5 key retrieval.  When neither the owner
check nor the user check matches the supplied password, the user check is
retried with the empty password; on any success the later steps still use
the supplied password.  The assignment to `EncryptionKey` is not consumed by
any claim and is not modelled. -/
def alg2a (P : ExtPrims) (crypt : PdfCrypt) (pass : Bytes) :
    Except Err Bool :=
  let pass := pass.take 127
  let h := alg12 P crypt pass
  let info : Option (Bytes × Bytes × Bytes) :=
    if h ≠ [] then
      some (pass ++ slice crypt.O 40 48 ++ crypt.U.take 48, crypt.OE,
        crypt.U.take 48)
    else
      let h := alg11 P crypt pass
      let h := if h = [] then alg11 P crypt [] else h
      if h = [] then none  -- wrong password: return false, nil
      else some (pass ++ slice crypt.U 40 48, crypt.UE, ([] : Bytes))
  match info with
  | none => .ok false
  | some (data, ekey, ukey) =>
    let ekey := ekey.take 32
    let ikey := alg2b P crypt data pass ukey
    if ¬aesKeyOk (ikey.take 32) then .error .aesKeySize
    else
      let fkey := cbcDecrypt P (ikey.take 32) (List.replicate 16 0) ekey
      if crypt.R = 5 then .ok true
      else alg13 P crypt fkey

/-- `authenticate` (lines 437–477). -/
def authenticate (P : ExtPrims) (crypt : PdfCrypt) (pass : Bytes) :
    Except Err Bool := do
  if crypt.R ≥ 5 then
    alg2a P crypt pass
  else do
    let auth ← Alg6 P crypt pass
    if auth then return true
    let auth ← Alg7 P crypt pass
    if auth then return true
    return false

/-- The owner check of `checkAccessRights` (lines 488–505). -/
def checkOwner (P : ExtPrims) (crypt : PdfCrypt) (pass : Bytes) :
    Except Err Bool := do
  if crypt.R ≥ 5 then
    return alg12 P crypt pass ≠ []
  else
    Alg7 P crypt pass

/-- The user check of `checkAccessRights` (lines 519–533). -/
def checkUser (P : ExtPrims) (crypt : PdfCrypt) (pass : Bytes) :
    Except Err Bool := do
  if crypt.R ≥ 5 then
    return alg11 P crypt pass ≠ []
  else
    Alg6 P crypt pass

/-- `checkAccessRights` (lines 485–541): owner password grants every
permission, the user password grants the permissions decoded from `P`, and
any other password is refused with the zero-value permission record and a
nil error. -/
def checkAccessRights (P : ExtPrims) (crypt : PdfCrypt) (pass : Bytes) :
    Except Err (Bool × AccessPermissions) := do
  let isOwner ← checkOwner P crypt pass
  if isOwner then
    return (true, fullPermissions)
  let isUser ← checkUser P crypt pass
  if isUser then
    return (true, crypt.GetAccessPermissions)
  return (false, {})

end PdfCrypt

/-! ## The object graph and the en/decryption walkers

Modelled from the spec: the PDF object container types live in the
repository's object-model file, which is not among the given sources.  The
spec (§3) describes a variant type — null, boolean, integer, real, name,
string, array, dictionary, stream, indirect reference — traversed by
pointer identity.  Pointer identity is modelled by a heap: objects live at
`Nat` addresses and containers hold addresses, so the same address reachable
twice is the same Go pointer reachable twice. -/

inductive PdfObj where
  | indirect (objNum genNum : Nat) (child : Nat)
  | stream (objNum genNum : Nat) (dict : Nat) (data : Bytes)
  | str (data : Bytes)
  | arr (elems : List Nat)
  | dict (entries : List (String × Nat))
  | name (s : String)
  | prim
  deriving Repr, DecidableEq

/-- Dereference (a dangling address reads as a scalar). -/
def heapAt (heap : List PdfObj) (id : Nat) : PdfObj := heap.getD id .prim

/-- `PdfObjectDictionary.Set`: replace or append the entry. -/
def dictSet (heap : List PdfObj) (d : Nat) (key : String) (vid : Nat) :
    List PdfObj :=
  match heapAt heap d with
  | .dict entries =>
    let entries :=
      if entries.any (·.1 == key) then
        entries.map fun kv => if kv.1 == key then (kv.1, vid) else kv
      else entries ++ [(key, vid)]
    heap.set d (.dict entries)
  | _ => heap

/-- Walker state: the heap, the identity-keyed processed set
(`DecryptedObjects` / `EncryptedObjects`), and an observation log of the
byte-level transformations applied, tagged `(isStream, id)`. -/
structure WalkState where
  heap : List PdfObj
  memo : List Nat
  log : List (Bool × Nat)
  deriving Repr

namespace PdfCrypt

/-- The stream-filter selection of the walkers for V ≥ 4 (crypt.go lines
744–767 and 994–1019): default `StmF`; a leading `Crypt` entry of the
`Filter` array overrides it with `DecodeParms.Name` (falling back to
Identity), and Go indexes `(*filters)[0]` unconditionally, so an empty
`Filter` array is a runtime panic. -/
def streamCryptFilter (crypt : PdfCrypt) (heap : List PdfObj)
    (entries : List (String × Nat)) : Except Err String :=
  match entries.lookup "Filter" with
  | some fid =>
    match heapAt heap fid with
    | .arr [] => .error .runtimePanic
    | .arr (e0 :: _) =>
      match heapAt heap e0 with
      | .name n =>
        if n = "Crypt" then
          match entries.lookup "DecodeParms" with
          | some dpid =>
            match heapAt heap dpid with
            | .dict dpe =>
              match dpe.lookup "Name" with
              | some nid =>
                match heapAt heap nid with
                | .name fn =>
                  if (crypt.CryptFilters.lookup fn).isSome then .ok fn
                  else .ok "Identity"
                | _ => .ok "Identity"
              | none => .ok "Identity"
            | _ => .ok "Identity"
          | none => .ok "Identity"
        else .ok crypt.StreamFilter
      | _ => .ok crypt.StreamFilter
    | _ => .ok crypt.StreamFilter
  | none => .ok crypt.StreamFilter

/-- The dictionary keys a walker recurses into (lines 848–863): skip
`Contents` when the dictionary is a signature, and the `Parent`/`Prev`/`Last`
back-links. -/
def dictChildren (heap : List PdfObj) (entries : List (String × Nat)) :
    List Nat :=
  let isSig :=
    match entries.lookup "Type" with
    | some tid =>
      match heapAt heap tid with
      | .name n => n = "Sig"
      | _ => false
    | none => false
  (entries.filter fun kv =>
    !(isSig && kv.1 == "Contents") &&
      kv.1 != "Parent" && kv.1 != "Prev" && kv.1 != "Last").map (·.2)

/-- `PdfCrypt.Decrypt` (lines 710–868) over a worklist of sibling
addresses, fuelled (one unit per processed object) so that the recursion is
structural and concrete runs reduce in the kernel.  Go recursion on an
object graph with an unmemoised cycle does not terminate, and neither does
the model (it reports `outOfFuel`).  The current `(objNum, genNum)` key
context is threaded as in the source. -/
def decryptGo (P : ExtPrims) (crypt : PdfCrypt) :
    Nat → WalkState → List Nat → Nat → Nat → WalkState × Option Err
  | _, st, [], _, _ => (st, none)
  | 0, st, _ :: _, _, _ => (st, some .outOfFuel)
  | fuel + 1, st, id :: rest, po, pg =>
    let one : WalkState × Option Err :=
      if id ∈ st.memo then (st, none)
      else
        match heapAt st.heap id with
        | .indirect o g c =>
          decryptGo P crypt fuel { st with memo := id :: st.memo } [c] o g
        | .stream o g d _ =>
          let st := { st with memo := id :: st.memo }
          let sfE : Except Err String :=
            if crypt.V ≥ 4 then
              match heapAt st.heap d with
              | .dict entries => crypt.streamCryptFilter st.heap entries
              | _ => .ok crypt.StreamFilter
            else .ok "Default"
          match sfE with
          | .error e => (st, some e)
          | .ok streamFilter =>
            if crypt.V ≥ 4 ∧ streamFilter = "Identity" then (st, none)
            else
              match decryptGo P crypt fuel st [d] o g with
              | (st, some e) => (st, some e)
              | (st, none) =>
                match
                  heapAt st.heap id,
                  crypt.makeKey streamFilter o g crypt.EncryptionKey with
                | .stream o' g' d' data, .ok okey =>
                  match crypt.decryptBytes P data streamFilter okey with
                  | .ok data' =>
                    let heap := st.heap.set id (.stream o' g' d' data')
                    -- dict.Set("Length", MakeInteger ...): fresh scalar object
                    let heap := dictSet (heap ++ [.prim]) d' "Length" heap.length
                    ({ st with heap := heap, log := st.log ++ [(true, id)] },
                      none)
                  | .error e => (st, some e)
                | _, .error e => (st, some e)
                | _, _ => (st, none)
        | .str data =>
          let sfO : Option String :=
            if crypt.V ≥ 4 then
              if crypt.StringFilter = "Identity" then none
              else some crypt.StringFilter
            else some "Default"
          match sfO with
          | none => (st, none)
          | some stringFilter =>
            match crypt.makeKey stringFilter po pg crypt.EncryptionKey with
            | .error e => (st, some e)
            | .ok key =>
              match crypt.decryptBytes P data stringFilter key with
              | .ok data' =>
                let st' := { st with
                  heap := st.heap.set id (.str data')
                  log := st.log ++ [(false, id)] }
                (st', none)
              | .error e => (st, some e)
        | .arr elems => decryptGo P crypt fuel st elems po pg
        | .dict entries =>
          decryptGo P crypt fuel st (dictChildren st.heap entries) po pg
        | .name _ => (st, none)
        | .prim => (st, none)
    match one with
    | (st', none) => decryptGo P crypt fuel st' rest po pg
    | r => r

/-- `PdfCrypt.Decrypt` on a single root object. -/
def decryptObj (P : ExtPrims) (crypt : PdfCrypt) (fuel : Nat)
    (st : WalkState) (id po pg : Nat) : WalkState × Option Err :=
  decryptGo P crypt fuel st [id] po pg

/-- `PdfCrypt.Encrypt` (lines 961–1118), shaped like `decryptGo`. -/
def encryptGo (P : ExtPrims) (crypt : PdfCrypt) :
    Nat → WalkState → List Nat → Nat → Nat → WalkState × Option Err
  | _, st, [], _, _ => (st, none)
  | 0, st, _ :: _, _, _ => (st, some .outOfFuel)
  | fuel + 1, st, id :: rest, po, pg =>
    let one : WalkState × Option Err :=
      if id ∈ st.memo then (st, none)
      else
        match heapAt st.heap id with
        | .indirect o g c =>
          encryptGo P crypt fuel { st with memo := id :: st.memo } [c] o g
        | .stream o g d _ =>
          let st := { st with memo := id :: st.memo }
          let sfE : Except Err String :=
            if crypt.V ≥ 4 then
              match heapAt st.heap d with
              | .dict entries => crypt.streamCryptFilter st.heap entries
              | _ => .ok crypt.StreamFilter
            else .ok "Default"
          match sfE with
          | .error e => (st, some e)
          | .ok streamFilter =>
            if crypt.V ≥ 4 ∧ streamFilter = "Identity" then (st, none)
            else
              match encryptGo P crypt fuel st [d] o g with
              | (st, some e) => (st, some e)
              | (st, none) =>
                match
                  heapAt st.heap id,
                  crypt.makeKey streamFilter o g crypt.EncryptionKey with
                | .stream o' g' d' data, .ok okey =>
                  match crypt.encryptBytes P data streamFilter okey with
                  | .ok data' =>
                    let heap := st.heap.set id (.stream o' g' d' data')
                    let heap := dictSet (heap ++ [.prim]) d' "Length" heap.length
                    ({ st with heap := heap, log := st.log ++ [(true, id)] },
                      none)
                  | .error e => (st, some e)
                | _, .error e => (st, some e)
                | _, _ => (st, none)
        | .str data =>
          let sfO : Option String :=
            if crypt.V ≥ 4 then
              if crypt.StringFilter = "Identity" then none
              else some crypt.StringFilter
            else some "Default"
          match sfO with
          | none => (st, none)
          | some stringFilter =>
            match crypt.makeKey stringFilter po pg crypt.EncryptionKey with
            | .error e => (st, some e)
            | .ok key =>
              match crypt.encryptBytes P data stringFilter key with
              | .ok data' =>
                let st' := { st with
                  heap := st.heap.set id (.str data')
                  log := st.log ++ [(false, id)] }
                (st', none)
              | .error e => (st, some e)
        | .arr elems => encryptGo P crypt fuel st elems po pg
        | .dict entries =>
          encryptGo P crypt fuel st (dictChildren st.heap entries) po pg
        | .name _ => (st, none)
        | .prim => (st, none)
    match one with
    | (st', none) => encryptGo P crypt fuel st' rest po pg
    | r => r

/-- `PdfCrypt.Encrypt` on a single root object. -/
def encryptObj (P : ExtPrims) (crypt : PdfCrypt) (fuel : Nat)
    (st : WalkState) (id po pg : Nat) : WalkState × Option Err :=
  encryptGo P crypt fuel st [id] po pg

end PdfCrypt

/-! ### Walker analysis definitions (claim C4)

`streamIds` projects the stream-tagged entries out of a walker log;
`WalkPost` is the invariant relating a walker's entry and exit states: the
memo set only grows, and every stream transformation appended to the log
during the span is of a freshly memoised object.  `decryptOne` /
`encryptOne` restate the per-object body of the walkers (the lemmas
`decryptGo_cons` / `encryptGo_cons` tie them to the originals by
definitional unfolding). -/



def streamIds (log : List (Bool × Nat)) : List Nat :=
  (log.filter fun e => e.1).map (·.2)

def WalkPost (s s' : WalkState) : Prop :=
  s.memo ⊆ s'.memo ∧
  ∃ Δ, s'.log = s.log ++ Δ ∧ (streamIds Δ).Nodup ∧
    ∀ x ∈ streamIds Δ, x ∈ s'.memo ∧ x ∉ s.memo

def decryptOne (P : ExtPrims) (crypt : PdfCrypt) (fuel : Nat)
    (st : WalkState) (id po pg : Nat) : WalkState × Option Err :=
  if id ∈ st.memo then (st, none)
  else
    match heapAt st.heap id with
    | .indirect o g c =>
      PdfCrypt.decryptGo P crypt fuel { st with memo := id :: st.memo } [c] o g
    | .stream o g d _ =>
      match (if crypt.V ≥ 4 then
               match heapAt st.heap d with
               | .dict entries => crypt.streamCryptFilter st.heap entries
               | _ => .ok crypt.StreamFilter
             else .ok "Default" : Except Err String) with
      | .error e => ({ st with memo := id :: st.memo }, some e)
      | .ok streamFilter =>
        if crypt.V ≥ 4 ∧ streamFilter = "Identity" then
          ({ st with memo := id :: st.memo }, none)
        else
          match PdfCrypt.decryptGo P crypt fuel
              { st with memo := id :: st.memo } [d] o g with
          | (st2, some e) => (st2, some e)
          | (st2, none) =>
            match
              heapAt st2.heap id,
              crypt.makeKey streamFilter o g crypt.EncryptionKey with
            | .stream o' g' d' data, .ok okey =>
              match crypt.decryptBytes P data streamFilter okey with
              | .ok data' =>
                let heap := st2.heap.set id (.stream o' g' d' data')
                let heap := dictSet (heap ++ [.prim]) d' "Length" heap.length
                ({ st2 with heap := heap, log := st2.log ++ [(true, id)] },
                  none)
              | .error e => (st2, some e)
            | _, .error e => (st2, some e)
            | _, _ => (st2, none)
    | .str data =>
      match (if crypt.V ≥ 4 then
               if crypt.StringFilter = "Identity" then none
               else some crypt.StringFilter
             else some "Default" : Option String) with
      | none => (st, none)
      | some stringFilter =>
        match crypt.makeKey stringFilter po pg crypt.EncryptionKey with
        | .error e => (st, some e)
        | .ok key =>
          match crypt.decryptBytes P data stringFilter key with
          | .ok data' =>
            ({ st with
                heap := st.heap.set id (.str data')
                log := st.log ++ [(false, id)] }, none)
          | .error e => (st, some e)
    | .arr elems => PdfCrypt.decryptGo P crypt fuel st elems po pg
    | .dict entries =>
      PdfCrypt.decryptGo P crypt fuel st (PdfCrypt.dictChildren st.heap entries) po pg
    | .name _ => (st, none)
    | .prim => (st, none)

set_option maxRecDepth 8000 in
set_option maxHeartbeats 1000000 in
def encryptOne (P : ExtPrims) (crypt : PdfCrypt) (fuel : Nat)
    (st : WalkState) (id po pg : Nat) : WalkState × Option Err :=
  if id ∈ st.memo then (st, none)
  else
    match heapAt st.heap id with
    | .indirect o g c =>
      PdfCrypt.encryptGo P crypt fuel { st with memo := id :: st.memo } [c] o g
    | .stream o g d _ =>
      match (if crypt.V ≥ 4 then
               match heapAt st.heap d with
               | .dict entries => crypt.streamCryptFilter st.heap entries
               | _ => .ok crypt.StreamFilter
             else .ok "Default" : Except Err String) with
      | .error e => ({ st with memo := id :: st.memo }, some e)
      | .ok streamFilter =>
        if crypt.V ≥ 4 ∧ streamFilter = "Identity" then
          ({ st with memo := id :: st.memo }, none)
        else
          match PdfCrypt.encryptGo P crypt fuel
              { st with memo := id :: st.memo } [d] o g with
          | (st2, some e) => (st2, some e)
          | (st2, none) =>
            match
              heapAt st2.heap id,
              crypt.makeKey streamFilter o g crypt.EncryptionKey with
            | .stream o' g' d' data, .ok okey =>
              match crypt.encryptBytes P data streamFilter okey with
              | .ok data' =>
                let heap := st2.heap.set id (.stream o' g' d' data')
                let heap := dictSet (heap ++ [.prim]) d' "Length" heap.length
                ({ st2 with heap := heap, log := st2.log ++ [(true, id)] },
                  none)
              | .error e => (st2, some e)
            | _, .error e => (st2, some e)
            | _, _ => (st2, none)
    | .str data =>
      match (if crypt.V ≥ 4 then
               if crypt.StringFilter = "Identity" then none
               else some crypt.StringFilter
             else some "Default" : Option String) with
      | none => (st, none)
      | some stringFilter =>
        match crypt.makeKey stringFilter po pg crypt.EncryptionKey with
        | .error e => (st, some e)
        | .ok key =>
          match crypt.encryptBytes P data stringFilter key with
          | .ok data' =>
            ({ st with
                heap := st.heap.set id (.str data')
                log := st.log ++ [(false, id)] }, none)
          | .error e => (st, some e)
    | .arr elems => PdfCrypt.encryptGo P crypt fuel st elems po pg
    | .dict entries =>
      PdfCrypt.encryptGo P crypt fuel st (PdfCrypt.dictChildren st.heap entries) po pg
    | .name _ => (st, none)
    | .prim => (st, none)

set_option maxRecDepth 8000 in
set_option maxHeartbeats 1000000 in

/-! ## Spec-side definitions and concrete instances

`specPerms` follows the spec's words (claim C8) for comparison with the
code's `GetAccessPermissions`; the remaining definitions are concrete
primitive packs and documents used by witnesses and counterexamples. -/

/-- The permission record the spec prescribes: P's 1-indexed bit positions
3=Printing, 4=Modify, 5=ExtractGraphics, 6=Annotate, 9=FillForms,
10=DisabilityExtract, 11=RotateInsert, 12=FullPrintQuality; 1-indexed bit
`n` is the `P & (1 << (n-1))` test. -/
def specPerms (P : Int) : AccessPermissions where
  Printing := intBit P (3 - 1)
  Modify := intBit P (4 - 1)
  ExtractGraphics := intBit P (5 - 1)
  Annotate := intBit P (6 - 1)
  FillForms := intBit P (9 - 1)
  DisabilityExtract := intBit P (10 - 1)
  RotateInsert := intBit P (11 - 1)
  FullPrintQuality := intBit P (12 - 1)

/-- A concrete primitive pack: hashes that keep the first input byte (so
password checks can distinguish passwords), a zero AES encryptor, an AES
decryptor whose plaintexts end in 19 (= 16 XOR 3), identity compression,
and a constant RNG.  Used to instantiate theorems that quantify over
`ExtPrims`. -/
def toyPrims : ExtPrims where
  sha256 := fun data => data.headD 0 :: List.replicate 31 0
  sha384 := fun _ => List.replicate 48 0
  sha512 := fun _ => List.replicate 64 0
  aesEncBlock := fun _ _ => List.replicate 16 0
  aesDecBlock := fun _ _ => List.replicate 15 0 ++ [19]
  deflate := id
  inflate := .ok
  lzwComp0 := id
  lzwDec0 := .ok
  lzwDec1 := .ok
  randBytes := fun n => List.replicate n 7

/-- A baseline crypt descriptor (R=2, RC4 w/ 40-bit keys). -/
def zeroCrypt : PdfCrypt where
  V := 0
  R := 2
  Length := 40
  O := List.replicate 32 1
  U := List.replicate 32 1
  OE := []
  UE := []
  P := -1
  Perms := []
  EncryptMetadata := true
  Id0 := []
  EncryptionKey := []
  CryptFilters := [("Default", ⟨"V2", 40⟩)]
  StreamFilter := "Default"
  StringFilter := "Default"

/-- A crypt descriptor with permissions value −4. -/
def permsSample : PdfCrypt := { zeroCrypt with P := -4 }

/-- A V4 descriptor whose AESV2 crypt filter is fed a 5-byte document key
(claim C3's counterexample). -/
def aes2Crypt : PdfCrypt :=
  { zeroCrypt with CryptFilters := [("F1", ⟨"AESV2", 16⟩)] }

/-- An R=5 document whose owner hash matches `toyPrims`' hash of any
password starting with a zero byte. -/
def r5OwnerDoc : PdfCrypt := { zeroCrypt with
  R := 5
  V := 5
  O := List.replicate 48 0
  U := List.replicate 48 0
  OE := List.replicate 32 0
  UE := List.replicate 32 0 }

/-- An R=5 document where only the user hash matches under `toyPrims`. -/
def r5UserDoc : PdfCrypt := { zeroCrypt with
  R := 5
  V := 5
  O := List.replicate 48 5
  U := List.replicate 48 0
  OE := List.replicate 32 0
  UE := List.replicate 32 0 }

/-- An R=5 document where neither hash matches under `toyPrims`. -/
def r5NoneDoc : PdfCrypt := { zeroCrypt with
  R := 5
  V := 5
  O := List.replicate 48 5
  U := List.replicate 48 9
  OE := List.replicate 32 0
  UE := List.replicate 32 0 }

/-- An R=6 document whose user password is empty under `toyPrims` (the
Algorithm 2.B hash of every input is 32 zero bytes, matching `U[0:32]`) and
whose owner hash never matches. -/
def r6EmptyUserDoc : PdfCrypt := { zeroCrypt with
  R := 6
  V := 5
  O := List.replicate 48 5
  U := List.replicate 48 0
  OE := List.replicate 32 0
  UE := List.replicate 32 0
  Perms := List.replicate 16 0 }

/-- A V4 descriptor encrypting strings and streams with an AESV2 filter. -/
def v4WalkCrypt : PdfCrypt := { zeroCrypt with
  V := 4
  R := 4
  Length := 128
  EncryptionKey := List.replicate 16 2
  CryptFilters := [("F1", ⟨"AESV2", 16⟩), ("Identity", ⟨"", 0⟩)]
  StreamFilter := "F1"
  StringFilter := "F1" }

/-- A heap in which the same string object (address 2) is reachable through
both slots of an array: one Go pointer, two paths. -/
def sharedStrHeap : List PdfObj :=
  [.indirect 1 0 1, .arr [2, 2], .str (List.replicate 48 3)]

/-! # Theorems -/

/-! ## General lemmas -/

theorem mem_getLastD {α : Type} (l : List α) (d : α) (h : l ≠ []) :
    l.getLastD d ∈ l := by
  induction l generalizing d with
  | nil => exact absurd rfl h
  | cons x xs ih =>
    cases xs with
    | nil => simp [List.getLastD]
    | cons y ys =>
      simp only [List.getLastD]
      exact List.mem_cons_of_mem x (ih y (by simp))

theorem md5_length (msg : Bytes) : (md5 msg).length = 16 := by
  simp [md5, MD5.word32LE]

/-! ## Claim C7 — run-length decoding of the concrete scenario -/

/-- Claim C7, counterexample: decoding
`05 48 65 6C 6C 6F 20 FE 21 80` does not yield the claimed text
"Hello !!" — the 254 length byte produces three copies of `!`, not two. -/
theorem c7_counterexample :
    RunLengthEncoder.DecodeBytes
        [0x05, 0x48, 0x65, 0x6C, 0x6C, 0x6F, 0x20, 0xFE, 0x21, 0x80] ≠
      .ok [0x48, 0x65, 0x6C, 0x6C, 0x6F, 0x20, 0x21, 0x21] := by decide

/-- Claim C7, amended: run-length decoding of
`05 48 65 6C 6C 6F 20 FE 21 80` succeeds and yields the ASCII text
"Hello !!!" — a length-5 byte introducing the literal "Hello ", then
length byte FE=254 producing 257−254=3 copies of `!`, then the end-of-data
marker 80. -/
theorem c7_amended :
    RunLengthEncoder.DecodeBytes
        [0x05, 0x48, 0x65, 0x6C, 0x6C, 0x6F, 0x20, 0xFE, 0x21, 0x80] =
      .ok [0x48, 0x65, 0x6C, 0x6C, 0x6F, 0x20, 0x21, 0x21, 0x21] := by decide

/-! ## Claim C8 — the decoded permission record -/

/-- Claim C8, counterexample: for P = −4 the code decodes Printing (and
Modify) as `true`, not `false` as claimed — −4 clears only the two's
complement bits 1 and 2 (1-indexed), which are reserved. -/
theorem c8_counterexample :
    permsSample.P = -4 ∧
    permsSample.GetAccessPermissions.Printing = true ∧
    permsSample.GetAccessPermissions.Modify = true := by decide

/-- Claim C8, amended: `GetAccessPermissions` decodes each field of P at
the fixed 1-indexed bit positions 3=Printing, 4=Modify, 5=ExtractGraphics,
6=Annotate, 9=FillForms, 10=DisabilityExtract, 11=RotateInsert,
12=FullPrintQuality (the spec-worded `specPerms`); for a document with
P = −4 every field of the record is `true`. -/
theorem c8_amended (crypt : PdfCrypt) :
    crypt.GetAccessPermissions = specPerms crypt.P ∧
    (crypt.P = -4 → crypt.GetAccessPermissions = fullPermissions) := by
  refine ⟨rfl, fun h => ?_⟩
  simp only [PdfCrypt.GetAccessPermissions, h]
  decide

/-- Witness for `c8_amended` at P = −4. -/
theorem c8_witness :
    permsSample.GetAccessPermissions = specPerms permsSample.P ∧
    permsSample.GetAccessPermissions = fullPermissions :=
  ⟨(c8_amended permsSample).1, (c8_amended permsSample).2 rfl⟩

/-! ## Claim C9 — the LZW encoder rejects the one-code-early dialect -/

/-- Claim C9, confirmed: for every input, `LZWEncoder.EncodeBytes` with
EarlyChange=1 returns an error (the unsupported-parameter rejections of the
encoder); encoding succeeds exactly when EarlyChange=0 and Predictor=1; and
a newly constructed LZW encoder defaults to EarlyChange=1, so the default
encoder's encode always fails. -/
theorem c9_lzw_encoder_restriction (P : ExtPrims) (enc : LZWEncoder)
    (data : Bytes) (hEC : enc.EarlyChange = 0 ∨ enc.EarlyChange = 1) :
    (enc.EarlyChange = 1 →
      ∃ e, LZWEncoder.EncodeBytes P enc data = .error e) ∧
    ((LZWEncoder.EncodeBytes P enc data).isOk = true ↔
      enc.EarlyChange = 0 ∧ enc.Predictor = 1) ∧
    LZWEncoder.new.EarlyChange = 1 ∧
    LZWEncoder.EncodeBytes P LZWEncoder.new data =
      .error .lzwEarlyChangeUnsupported := by
  have hchar : LZWEncoder.EncodeBytes P enc data =
      if enc.Predictor ≠ 1 then .error .lzwPredictorUnsupported
      else if enc.EarlyChange = 1 then .error .lzwEarlyChangeUnsupported
      else .ok (P.lzwComp0 data) := by
    by_cases hp : enc.Predictor = 1 <;> by_cases he : enc.EarlyChange = 1 <;>
      · simp only [LZWEncoder.EncodeBytes, hp, he]
        first | rfl | (simp [hp, he]; rfl)
  refine ⟨fun h1 => ?_, ?_, rfl, by rfl⟩
  · by_cases hp : enc.Predictor = 1
    · exact ⟨.lzwEarlyChangeUnsupported, by rw [hchar]; simp [hp, h1]⟩
    · exact ⟨.lzwPredictorUnsupported, by rw [hchar]; simp [hp]⟩
  · rw [hchar]
    by_cases hp : enc.Predictor = 1 <;> by_cases he : enc.EarlyChange = 1 <;>
      simp [hp, he, Except.isOk, Except.toBool] <;> omega

/-- Witness for `c9_lzw_encoder_restriction`: the default encoder on a
non-empty input. -/
theorem c9_witness :
    ∃ e, LZWEncoder.EncodeBytes toyPrims LZWEncoder.new [1, 2, 3] = .error e :=
  (c9_lzw_encoder_restriction toyPrims LZWEncoder.new [1, 2, 3]
    (Or.inr rfl)).1 rfl

/-! ## Claim C3 — the per-object key derivation -/

/-- Claim C3, counterexample: for the AESV2 method with a 5-byte document
key the per-object key is the 10-byte truncation of the MD5 digest, not the
full 16 bytes the claim states. -/
theorem c3_counterexample :
    aes2Crypt.makeKey "F1" 7 0 [0, 1, 2, 3, 4] ≠
      .ok (md5 [0, 1, 2, 3, 4, 7, 0, 0, 0, 0, 0x73, 0x41, 0x6C, 0x54]) ∧
    (aes2Crypt.makeKey "F1" 7 0 [0, 1, 2, 3, 4]).map List.length =
      .ok 10 := by decide

/-- Claim C3, amended: for V2 and AESV2 the per-object key is
`MD5(document-key ‖ objNum_LE[0..2] ‖ genNum_LE[0..1] ‖ ("sAlT" iff AESV2))`
truncated to `min(len(document-key) + 5, 16)` bytes — for AESV2 as well as
V2; for AESV3 the document key is returned unchanged.  In particular, for
V2 with document key `00 01 02 03 04`, objNum=7, genNum=0 the per-object
key is `MD5(00 01 02 03 04 07 00 00 00 00)` truncated to 10 bytes. -/
theorem c3_amended (crypt : PdfCrypt) (filter : String) (cf : CryptFilter)
    (objNum genNum : Nat) (ekey : Bytes)
    (hcf : crypt.CryptFilters.lookup filter = some cf) :
    (cf.Cfm = "AESV3" → crypt.makeKey filter objNum genNum ekey = .ok ekey) ∧
    (cf.Cfm = "V2" →
      crypt.makeKey filter objNum genNum ekey =
        .ok ((md5 (ekey ++
            [objNum % 256, objNum / 2 ^ 8 % 256, objNum / 2 ^ 16 % 256,
             genNum % 256, genNum / 2 ^ 8 % 256])).take
          (min (ekey.length + 5) 16))) ∧
    (cf.Cfm = "AESV2" →
      crypt.makeKey filter objNum genNum ekey =
        .ok ((md5 (ekey ++
            [objNum % 256, objNum / 2 ^ 8 % 256, objNum / 2 ^ 16 % 256,
             genNum % 256, genNum / 2 ^ 8 % 256] ++
            [0x73, 0x41, 0x6C, 0x54])).take
          (min (ekey.length + 5) 16))) ∧
    zeroCrypt.makeKey "Default" 7 0 [0, 1, 2, 3, 4] =
      .ok ((md5 [0, 1, 2, 3, 4, 7, 0, 0, 0, 0]).take 10) := by
  have hrange3 :
      (List.range 3).map (fun i => objNum / 2 ^ (8 * i) % 256) =
        [objNum % 256, objNum / 2 ^ 8 % 256, objNum / 2 ^ 16 % 256] := by
    simp [List.range_succ]
  have hrange2 :
      (List.range 2).map (fun i => genNum / 2 ^ (8 * i) % 256) =
        [genNum % 256, genNum / 2 ^ 8 % 256] := by
    simp [List.range_succ]
  have htrunc : ∀ msg : Bytes,
      (if ekey.length + 5 < 16 then (md5 msg).take (ekey.length + 5)
       else md5 msg) = (md5 msg).take (min (ekey.length + 5) 16) := by
    intro msg
    by_cases hlen : ekey.length + 5 < 16
    · rw [if_pos hlen, Nat.min_eq_left (Nat.le_of_lt hlen)]
    · rw [if_neg hlen, Nat.min_eq_right (by omega),
        List.take_of_length_le (by rw [md5_length])]
  refine ⟨fun h3 => ?_, fun h2 => ?_, fun ha => ?_, by decide⟩
  · simp only [PdfCrypt.makeKey, hcf, h3]
    rfl
  · rw [PdfCrypt.makeKey]
    simp only [hcf, h2,
      show ("V2" = "AESV3") = False by simp,
      show ("V2" = "AESV2") = False by simp,
      if_false, ite_false, hrange3, hrange2]
    rw [← htrunc]
    simp only [List.append_assoc, List.cons_append, List.nil_append]
    split <;> rfl
  · rw [PdfCrypt.makeKey]
    simp only [hcf, ha,
      show ("AESV2" = "AESV3") = False by simp,
      show ("AESV2" = "AESV2") = True by simp,
      if_false, ite_false, if_true, ite_true, hrange3, hrange2]
    rw [← htrunc]
    simp only [List.append_assoc, List.cons_append, List.nil_append]
    split <;> rfl

/-- Witness for `c3_amended` at the claim's own concrete instance. -/
theorem c3_witness :
    zeroCrypt.makeKey "Default" 7 0 [0, 1, 2, 3, 4] =
      .ok ((md5 [0, 1, 2, 3, 4, 7, 0, 0, 0, 0]).take 10) :=
  (c3_amended zeroCrypt "Default" ⟨"V2", 40⟩ 7 0 [0, 1, 2, 3, 4]
    (by decide)).2.2.2

/-! ## Claim C2 — access rights by password class -/

/-- Claim C2, confirmed: `checkAccessRights` grants every permission to the
owner password, grants exactly the permissions decoded from P to the user
password, and answers `(false, zero permissions, nil error)` for any other
password.  The password classes are the code's own owner/user checks
(`Alg7`/`alg12` and `Alg6`/`alg11` according to the revision). -/
theorem c2_check_access_rights (P : ExtPrims) (crypt : PdfCrypt)
    (pass : Bytes) :
    (PdfCrypt.checkOwner P crypt pass = .ok true →
      PdfCrypt.checkAccessRights P crypt pass = .ok (true, fullPermissions)) ∧
    (PdfCrypt.checkOwner P crypt pass = .ok false →
      PdfCrypt.checkUser P crypt pass = .ok true →
      PdfCrypt.checkAccessRights P crypt pass =
        .ok (true, crypt.GetAccessPermissions)) ∧
    (PdfCrypt.checkOwner P crypt pass = .ok false →
      PdfCrypt.checkUser P crypt pass = .ok false →
      PdfCrypt.checkAccessRights P crypt pass = .ok (false, {})) := by
  refine ⟨fun h1 => ?_, fun h1 h2 => ?_, fun h1 h2 => ?_⟩
  · simp only [PdfCrypt.checkAccessRights, h1]; rfl
  · simp only [PdfCrypt.checkAccessRights, h1, h2]; rfl
  · simp only [PdfCrypt.checkAccessRights, h1, h2]; rfl

/-- Witness for `c2_check_access_rights`: three R=5 documents under
`toyPrims` realising the three password classes. -/
theorem c2_witness :
    PdfCrypt.checkAccessRights toyPrims r5OwnerDoc [] =
      .ok (true, fullPermissions) ∧
    PdfCrypt.checkAccessRights toyPrims r5UserDoc [] =
      .ok (true, r5UserDoc.GetAccessPermissions) ∧
    PdfCrypt.checkAccessRights toyPrims r5NoneDoc [] = .ok (false, {}) :=
  ⟨(c2_check_access_rights toyPrims r5OwnerDoc []).1 (by decide),
   (c2_check_access_rights toyPrims r5UserDoc []).2.1 (by decide) (by decide),
   (c2_check_access_rights toyPrims r5NoneDoc []).2.2 (by decide) (by decide)⟩

/-! ## Claim C6 — termination of Algorithm 2.B -/

theorem cbcEncryptGo_mem_lt (P : ExtPrims) (key : Bytes)
    (haes : ∀ k b, ∀ y ∈ P.aesEncBlock k b, y < 256) :
    ∀ fuel iv data, ∀ y ∈ cbcEncryptGo P key fuel iv data, y < 256 := by
  intro fuel
  induction fuel with
  | zero => intro iv data y hy; simp [cbcEncryptGo] at hy
  | succ n ih =>
    intro iv data y hy
    rw [cbcEncryptGo] at hy
    split at hy
    · simp at hy
    · rcases List.mem_append.mp hy with h | h
      · exact haes _ _ _ h
      · exact ih _ _ _ h

theorem cbcEncrypt_ne_nil (P : ExtPrims) (key iv data : Bytes)
    (haesLen : ∀ k b, (P.aesEncBlock k b).length = 16)
    (hd : 16 ≤ data.length) : cbcEncrypt P key iv data ≠ [] := by
  rw [cbcEncrypt]
  rcases hn : data.length with _ | n
  · omega
  · rw [cbcEncryptGo]
    rw [if_neg (by omega)]
    intro hcontra
    have := congrArg List.length hcontra
    simp [haesLen] at this

theorem alg2bRound_snd_ne_nil (P : ExtPrims)
    (h256 : ∀ x, (P.sha256 x).length = 32)
    (h384 : ∀ x, (P.sha384 x).length = 48)
    (h512 : ∀ x, (P.sha512 x).length = 64)
    (pwd uk K : Bytes) : (PdfCrypt.alg2bRound P pwd uk K).2 ≠ [] := by
  rw [PdfCrypt.alg2bRound]
  simp only
  split
  · intro hc
    have := congrArg List.length hc
    simp [h256] at this
  · intro hc
    have := congrArg List.length hc
    simp [h384] at this
  · intro hc
    have := congrArg List.length hc
    simp [h512] at this

theorem alg2bRound_fst_props (P : ExtPrims)
    (haesLen : ∀ k b, (P.aesEncBlock k b).length = 16)
    (haes : ∀ k b, ∀ y ∈ P.aesEncBlock k b, y < 256)
    (pwd uk K : Bytes) (hK : K ≠ []) :
    (PdfCrypt.alg2bRound P pwd uk K).1 ≠ [] ∧
      ∀ y ∈ (PdfCrypt.alg2bRound P pwd uk K).1, y < 256 := by
  rw [PdfCrypt.alg2bRound]
  simp only
  constructor
  · apply cbcEncrypt_ne_nil P _ _ _ haesLen
    have h1 : 1 ≤ (pwd ++ K ++ uk).length := by
      have : K.length ≠ 0 := fun h0 => hK (List.length_eq_zero.mp h0)
      simp only [List.length_append]
      omega
    simp only [List.length_flatten, List.map_replicate, List.sum_replicate,
      smul_eq_mul]
    omega
  · intro y hy
    exact cbcEncryptGo_mem_lt P _ haes _ _ _ y hy

theorem alg2bLoop_some (P : ExtPrims)
    (h256 : ∀ x, (P.sha256 x).length = 32)
    (h384 : ∀ x, (P.sha384 x).length = 48)
    (h512 : ∀ x, (P.sha512 x).length = 64)
    (haesLen : ∀ k b, (P.aesEncBlock k b).length = 16)
    (haes : ∀ k b, ∀ y ∈ P.aesEncBlock k b, y < 256)
    (pwd uk : Bytes) :
    ∀ fuel i K, K ≠ [] → 287 ≤ fuel + i → i ≤ 286 →
      (PdfCrypt.alg2bLoop P pwd uk fuel i K).isSome = true := by
  intro fuel
  induction fuel with
  | zero => intro i K _ h1 h2; omega
  | succ n ih =>
    intro i K hK h1 h2
    rw [PdfCrypt.alg2bLoop]
    have hE := alg2bRound_fst_props P haesLen haes pwd uk K hK
    have hKn := alg2bRound_snd_ne_nil P h256 h384 h512 pwd uk K
    split
    rename_i E K' heq
    rw [heq] at hE hKn
    simp only at hE hKn
    show (if i + 1 ≥ 64 ∧ E.getLastD 0 ≤ i + 1 - 32 then some (K'.take 32)
      else PdfCrypt.alg2bLoop P pwd uk n (i + 1) K').isSome = true
    by_cases hcond : i + 1 ≥ 64 ∧ E.getLastD 0 ≤ i + 1 - 32
    · rw [if_pos hcond]; rfl
    · rw [if_neg hcond]
      apply ih (i + 1) K' hKn (by omega)
      -- the loop must exit by i + 1 = 287, so here i + 1 ≤ 286
      by_contra hgt
      apply hcond
      have hb : E.getLastD 0 < 256 := hE.2 _ (mem_getLastD _ _ hE.1)
      omega

theorem alg2bLoop_none_before_64 (P : ExtPrims) (pwd uk : Bytes) :
    ∀ fuel i K, fuel + i ≤ 63 →
      PdfCrypt.alg2bLoop P pwd uk fuel i K = none := by
  intro fuel
  induction fuel with
  | zero => intro i K _; rfl
  | succ n ih =>
    intro i K h
    rw [PdfCrypt.alg2bLoop]
    split
    rename_i E K' heq
    show (if i + 1 ≥ 64 ∧ E.getLastD 0 ≤ i + 1 - 32 then some (K'.take 32)
      else PdfCrypt.alg2bLoop P pwd uk n (i + 1) K') = none
    rw [if_neg fun hc => absurd hc.1 (by omega)]
    exact ih (i + 1) _ (by omega)

/-- Claim C6, confirmed: for every input `(data, password, userKey)` and
every byte-valued block cipher and standard-length hash family, the
Algorithm 2.B iteration reaches its stop condition within 287 rounds — a
bound independent of the input (the last byte of `E` is at most 255, so at
`i = 287` the stop test `i ≥ 64 ∧ E.last ≤ i − 32` cannot fail) — and never
stops before the round counter has reached 64. -/
theorem c6_alg2b_terminates (P : ExtPrims)
    (h256 : ∀ x, (P.sha256 x).length = 32)
    (h384 : ∀ x, (P.sha384 x).length = 48)
    (h512 : ∀ x, (P.sha512 x).length = 64)
    (haesLen : ∀ k b, (P.aesEncBlock k b).length = 16)
    (haes : ∀ k b, ∀ y ∈ P.aesEncBlock k b, y < 256)
    (data pwd userKey : Bytes) :
    (PdfCrypt.alg2bLoop P pwd userKey 287 0 (P.sha256 data)).isSome = true ∧
    PdfCrypt.alg2bLoop P pwd userKey 63 0 (P.sha256 data) = none := by
  constructor
  · apply alg2bLoop_some P h256 h384 h512 haesLen haes pwd userKey 287 0
    · intro h0
      have := congrArg List.length h0
      simp [h256] at this
    · omega
    · omega
  · exact alg2bLoop_none_before_64 P pwd userKey 63 0 _ (by omega)

/-- Witness for `c6_alg2b_terminates` under `toyPrims`. -/
theorem c6_witness :
    (PdfCrypt.alg2bLoop toyPrims [1] [] 287 0 (toyPrims.sha256 [2])).isSome =
      true ∧
    PdfCrypt.alg2bLoop toyPrims [1] [] 63 0 (toyPrims.sha256 [2]) = none :=
  c6_alg2b_terminates toyPrims
    (fun x => by simp [toyPrims])
    (fun x => by simp [toyPrims])
    (fun x => by simp [toyPrims])
    (fun k b => by simp [toyPrims])
    (fun k b y hy => by simp [toyPrims] at hy; omega)
    [2] [1] []

/-! ## Claim C10 — the empty-password retry of alg2a -/

theorem mem_headD {α : Type} (l : List α) (d : α) (h : l ≠ []) :
    l.headD d ∈ l := by
  cases l with
  | nil => exact absurd rfl h
  | cons x xs => simp

theorem toy_cbcEncryptGo_zero (key : Bytes) :
    ∀ fuel iv data, ∀ y ∈ cbcEncryptGo toyPrims key fuel iv data, y = 0 := by
  intro fuel
  induction fuel with
  | zero => intro iv data y hy; simp [cbcEncryptGo] at hy
  | succ n ih =>
    intro iv data y hy
    rw [cbcEncryptGo] at hy
    split at hy
    · simp at hy
    · rcases List.mem_append.mp hy with h | h
      · simp [toyPrims] at h
        exact h
      · exact ih _ _ _ h

/-- Under `toyPrims` every round of Algorithm 2.B rehashes to 32 zero bytes
and ends on a zero byte. -/
theorem toy_round (pwd uk K : Bytes) (hK : K ≠ []) :
    (PdfCrypt.alg2bRound toyPrims pwd uk K).2 = List.replicate 32 0 ∧
    (PdfCrypt.alg2bRound toyPrims pwd uk K).1.getLastD 0 = 0 := by
  have hK1len : 16 ≤ ((List.replicate 64 (pwd ++ K ++ uk)).flatten).length := by
    have : K.length ≠ 0 := fun h0 => hK (List.length_eq_zero.mp h0)
    simp only [List.length_flatten, List.map_replicate, List.sum_replicate,
      smul_eq_mul, List.length_append]
    omega
  rcases hEq : PdfCrypt.alg2bRound toyPrims pwd uk K with ⟨E, K'⟩
  rw [PdfCrypt.alg2bRound] at hEq
  simp only [Prod.mk.injEq] at hEq
  obtain ⟨hEeq, hKeq⟩ := hEq
  have hEzero : ∀ y ∈ E, y = 0 := by
    rw [← hEeq]
    intro y hy
    exact toy_cbcEncryptGo_zero _ _ _ _ y hy
  have hEne : E ≠ [] := by
    rw [← hEeq]
    exact cbcEncrypt_ne_nil toyPrims _ _ _ (fun k b => by simp [toyPrims])
      hK1len
  have hsum : ((E.take 16).map (· % 3)).sum = 0 := by
    apply List.sum_eq_zero
    intro x hx
    rcases List.mem_map.mp hx with ⟨y, hy, rfl⟩
    rw [hEzero y (List.mem_of_mem_take hy)]
    decide
  rw [hEeq] at hKeq
  refine ⟨?_, hEzero _ (mem_getLastD _ _ hEne)⟩
  rw [← hKeq, hsum]
  show toyPrims.sha256 E = List.replicate 32 0
  have hhead : E.headD 0 = 0 := hEzero _ (mem_headD _ _ hEne)
  show E.headD 0 :: List.replicate 31 0 = List.replicate 32 0
  rw [hhead]
  rfl

/-- Under `toyPrims` the Algorithm 2.B loop started below 64 returns 32
zero bytes once the fuel reaches 64. -/
theorem toy_loop (pwd uk : Bytes) :
    ∀ fuel i K, K ≠ [] → i < 64 → 64 ≤ fuel + i →
      PdfCrypt.alg2bLoop toyPrims pwd uk fuel i K =
        some (List.replicate 32 0) := by
  intro fuel
  induction fuel with
  | zero => intro i K _ h1 h2; omega
  | succ n ih =>
    intro i K hK h1 h2
    rw [PdfCrypt.alg2bLoop]
    split
    rename_i E K' heq
    have ht := toy_round pwd uk K hK
    rw [heq] at ht
    simp only at ht
    show (if i + 1 ≥ 64 ∧ E.getLastD 0 ≤ i + 1 - 32 then some (K'.take 32)
      else PdfCrypt.alg2bLoop toyPrims pwd uk n (i + 1) K') =
        some (List.replicate 32 0)
    rw [ht.2]
    by_cases hc : i + 1 ≥ 64
    · rw [if_pos ⟨hc, by omega⟩, ht.1]
      simp
    · rw [if_neg fun hcon => hc hcon.1]
      exact ih (i + 1) K' (by rw [ht.1]; simp) (by omega) (by omega)

/-- Under `toyPrims` the R=6 hash of Algorithm 2.B is 32 zero bytes for
every input. -/
theorem toy_alg2bR6 (data pwd uk : Bytes) :
    PdfCrypt.alg2bR6 toyPrims data pwd uk = List.replicate 32 0 := by
  rw [PdfCrypt.alg2bR6,
    toy_loop pwd uk 287 0 (toyPrims.sha256 data) (by simp [toyPrims])
      (by omega) (by omega)]
  rfl

theorem r6_alg2b (d p u : Bytes) :
    PdfCrypt.alg2b toyPrims r6EmptyUserDoc d p u = List.replicate 32 0 := by
  rw [PdfCrypt.alg2b, if_neg (by decide)]
  exact toy_alg2bR6 d p u

theorem r6_alg12_empty : PdfCrypt.alg12 toyPrims r6EmptyUserDoc [] = [] := by
  rw [PdfCrypt.alg12, r6_alg2b]
  decide

theorem r6_alg11_empty :
    PdfCrypt.alg11 toyPrims r6EmptyUserDoc [] = List.replicate 32 0 := by
  rw [PdfCrypt.alg11, r6_alg2b]
  decide

theorem r6_alg2a :
    PdfCrypt.alg2a toyPrims r6EmptyUserDoc [] = .error .permsInvalid := by
  rw [PdfCrypt.alg2a]
  simp only [List.take_nil, r6_alg12_empty, r6_alg11_empty, r6_alg2b]
  decide

/-- Claim C10, counterexample: an R=6 document whose user password is empty
(the empty password passes `alg11`) on which `authenticate` with the empty
supplied password does not return true — the later steps derive the file
key from the supplied password, and the R=6 permission validation
(Algorithm 13) rejects it. -/
theorem c10_counterexample :
    r6EmptyUserDoc.R ≥ 5 ∧
    PdfCrypt.alg11 toyPrims r6EmptyUserDoc [] ≠ [] ∧
    PdfCrypt.authenticate toyPrims r6EmptyUserDoc [] ≠ .ok true := by
  refine ⟨by decide, ?_, ?_⟩
  · rw [r6_alg11_empty]; decide
  · rw [PdfCrypt.authenticate]
    show (if r6EmptyUserDoc.R ≥ 5 then _ else _) ≠ _
    rw [if_pos (by decide), r6_alg2a]
    decide

/-- Claim C10, amended: for R ≥ 5, when the supplied password matches
neither the owner hash (Alg 12) nor the user hash (Alg 11), `alg2a` retries
the user check with the empty password before reporting failure (so failure
is only reported when the empty password also fails); and for an R=5
document whose user password is empty, `authenticate` returns true for
every supplied password.  (For R=6 the subsequent Algorithm 13 check runs
with a key derived from the supplied — wrong — password and in general
fails, as the counterexample shows.) -/
theorem c10_amended (P : ExtPrims) (crypt : PdfCrypt) (pass : Bytes)
    (hR : crypt.R ≥ 5) :
    (PdfCrypt.alg12 P crypt (pass.take 127) = [] →
      PdfCrypt.alg11 P crypt (pass.take 127) = [] →
      PdfCrypt.alg11 P crypt [] = [] →
      PdfCrypt.authenticate P crypt pass = .ok false) ∧
    (crypt.R = 5 → (∀ x, (P.sha256 x).length = 32) →
      PdfCrypt.alg12 P crypt (pass.take 127) = [] →
      PdfCrypt.alg11 P crypt [] ≠ [] →
      PdfCrypt.authenticate P crypt pass = .ok true) := by
  constructor
  · intro h12 h11 h11e
    rw [PdfCrypt.authenticate]
    show (if crypt.R ≥ 5 then _ else _) = _
    rw [if_pos hR, PdfCrypt.alg2a]
    simp only [h12, h11, h11e, ne_eq, not_true_eq_false, if_false]
    rfl
  · intro hR5 h256 h12 h11e
    rw [PdfCrypt.authenticate]
    show (if crypt.R ≥ 5 then _ else _) = _
    rw [if_pos hR, PdfCrypt.alg2a]
    simp only [h12, ne_eq, not_true_eq_false, if_false]
    have hkey : ∀ dat uk,
        aesKeyOk ((PdfCrypt.alg2b P crypt dat (pass.take 127) uk).take 32) =
          true := by
      intro dat uk
      rw [PdfCrypt.alg2b, if_pos hR5]
      simp [aesKeyOk, PdfCrypt.alg2b_R5, List.length_take, h256]
    by_cases h11 : PdfCrypt.alg11 P crypt (pass.take 127) = [] <;>
      simp [h11, h11e, hkey, hR5]

/-- Witness for `c10_amended`: the retry-failure case on an R=5 document
with no matching password, and the success case on an R=5 document with an
empty user password. -/
theorem c10_witness :
    PdfCrypt.authenticate toyPrims r5NoneDoc [3] = .ok false ∧
    PdfCrypt.authenticate toyPrims r5UserDoc [3] = .ok true :=
  ⟨(c10_amended toyPrims r5NoneDoc [3] (by decide)).1 (by decide) (by decide)
      (by decide),
   (c10_amended toyPrims r5UserDoc [3] (by decide)).2 (by decide)
      (fun x => by simp [toyPrims]) (by decide) (by decide)⟩

/-! ## Claim C5: flate / LZW predictor round trips

Supporting lemmas: the PNG sub filter decode inverts its encode on byte
values, `splitRowsGo` splits a flattening of uniform rows back into those
rows (and conversely splits a length-multiple input into uniform rows whose
flattening is the input), and the flate PNG decode loop inverts the
encoder's per-row sub filtering. -/


theorem pngSubRowEncode_go_length (prev : Nat) (rs : Bytes) :
    (pngSubRowEncode.go prev rs).length = rs.length := by
  induction rs generalizing prev with
  | nil => rfl
  | cons r rs ih => simp [pngSubRowEncode.go, ih]

theorem pngSubRowDecode_go_encode (prev : Nat) (rs : Bytes)
    (hp : prev < 256) (hr : ∀ x ∈ rs, x < 256) :
    pngSubRowDecode.go prev (pngSubRowEncode.go prev rs) = rs := by
  induction rs generalizing prev with
  | nil => rfl
  | cons r rs ih =>
    have hr0 : r < 256 := hr r (by simp)
    have key : ((r + 256 - prev) % 256 + prev) % 256 = r := by omega
    simp only [pngSubRowEncode.go, pngSubRowDecode.go, key, List.cons.injEq,
      true_and]
    exact ih r hr0 (fun x hx => hr x (by simp [hx]))

theorem pngSubRowDecode_encode (r : Bytes) (hr : ∀ x ∈ r, x < 256) :
    pngSubRowDecode (pngSubRowEncode r) = r := by
  cases r with
  | nil => rfl
  | cons r0 rs =>
    have h0 : r0 < 256 := hr r0 (by simp)
    simp only [pngSubRowEncode, pngSubRowDecode, List.cons.injEq, true_and]
    exact pngSubRowDecode_go_encode r0 rs h0 (fun x hx => hr x (by simp [hx]))

theorem splitRowsGo_join (n : Nat) (hn : 0 < n) :
    ∀ (rows : List Bytes) (fuel : Nat), (∀ r ∈ rows, r.length = n) →
      rows.flatten.length ≤ fuel →
      splitRowsGo n fuel rows.flatten = rows := by
  intro rows
  induction rows with
  | nil =>
    intro fuel _ _
    cases fuel <;> rfl
  | cons r rs ih =>
    intro fuel hrows hlen
    have hrlen : r.length = n := hrows r (by simp)
    have hrne : r ≠ [] := by
      intro h
      rw [h] at hrlen
      simp at hrlen
      omega
    obtain ⟨r0, rtl, rfl⟩ : ∃ a l, r = a :: l := by
      cases r with
      | nil => exact absurd rfl hrne
      | cons a l => exact ⟨a, l, rfl⟩
    rw [List.flatten_cons] at hlen ⊢
    simp only [List.length_append, List.length_cons] at hlen
    cases fuel with
    | zero => omega
    | succ fuel =>
      have hred : splitRowsGo n (fuel + 1) ((r0 :: rtl) ++ rs.flatten) =
          if n = 0 then []
          else ((r0 :: rtl) ++ rs.flatten).take n ::
            splitRowsGo n fuel (((r0 :: rtl) ++ rs.flatten).drop n) := rfl
      rw [hred, if_neg (by omega),
        List.take_append_of_le_length hrlen.ge,
        List.take_of_length_le hrlen.le,
        List.drop_append_of_le_length hrlen.ge,
        List.drop_of_length_le hrlen.le, List.nil_append]
      congr 1
      refine ih fuel (fun x hx => hrows x (by simp [hx])) ?_
      simp only [List.length_cons] at hrlen
      omega

theorem splitRowsGo_spec (n : Nat) (hn : 0 < n) :
    ∀ fuel data, data.length ≤ fuel → n ∣ data.length →
      (splitRowsGo n fuel data).flatten = data ∧
      ∀ r ∈ splitRowsGo n fuel data, r.length = n := by
  intro fuel
  induction fuel with
  | zero =>
    intro data hlen _
    have hd : data = [] := by
      cases data with
      | nil => rfl
      | cons d ds => simp at hlen
    subst hd
    exact ⟨rfl, by intro r hr; cases hr⟩
  | succ fuel ih =>
    intro data hlen hdvd
    match data with
    | [] => exact ⟨rfl, by intro r hr; cases hr⟩
    | d :: ds =>
      obtain ⟨k, hk⟩ := hdvd
      have hk1 : 1 ≤ k := by
        by_contra h
        have hz : k = 0 := by omega
        simp [hz] at hk
      have hnlen : n ≤ (d :: ds).length := by
        rw [hk]
        calc n = n * 1 := (Nat.mul_one n).symm
        _ ≤ n * k := Nat.mul_le_mul_left n hk1
      have hred : splitRowsGo n (fuel + 1) (d :: ds) =
          if n = 0 then []
          else (d :: ds).take n :: splitRowsGo n fuel ((d :: ds).drop n) := rfl
      rw [hred, if_neg (by omega)]
      have hdrop : ((d :: ds).drop n).length = (d :: ds).length - n := by
        simp
      have ihr := ih ((d :: ds).drop n) (by omega) (by
        refine ⟨k - 1, ?_⟩
        rw [hdrop, hk, Nat.mul_sub_one])
      refine ⟨?_, ?_⟩
      · rw [List.flatten_cons, ihr.1, List.take_append_drop]
      · intro r hr
        rcases List.mem_cons.mp hr with h | h
        · subst h
          simp only [List.length_take]
          omega
        · exact ihr.2 r h

theorem flatten_length_uniform (n : Nat) (rows : List Bytes)
    (h : ∀ r ∈ rows, r.length = n) :
    rows.flatten.length = rows.length * n := by
  induction rows with
  | nil => simp
  | cons r rs ih =>
    simp only [List.flatten_cons, List.length_append, List.length_cons,
      h r (by simp), ih (fun x hx => h x (by simp [hx]))]
    ring

theorem pngDecodeRowsFlate_go_encode (rows : List Bytes)
    (h : ∀ r ∈ rows, ∀ x ∈ r, x < 256) :
    ∀ prevRow, pngDecodeRowsFlate.go prevRow
        (rows.map fun r => 1 :: pngSubRowEncode r) = .ok rows.flatten := by
  induction rows with
  | nil => intro prevRow; rfl
  | cons r rs ih =>
    intro prevRow
    have hdec := pngSubRowDecode_encode r (h r (by simp))
    simp [pngDecodeRowsFlate.go, pngDecodeRowFlate, hdec,
      ih (fun x hx => h x (by simp [hx]))]
    rfl

theorem exceptBind_ok {ε α β : Type} (a : α) (f : α → Except ε β) :
    (Except.ok a : Except ε α) >>= f = f a := rfl

theorem pngSubRowEncode_length (r : Bytes) :
    (pngSubRowEncode r).length = r.length := by
  cases r with
  | nil => rfl
  | cons r0 rs => simp [pngSubRowEncode, pngSubRowEncode_go_length]

theorem flate11_encode_decode (P : ExtPrims) (c : Nat) (X : Bytes)
    (hc : 0 < c) (hX : ByteVals X) (hne : X ≠ []) (hdvd : c ∣ X.length)
    (hinf : ∀ d, P.inflate (P.deflate d) = .ok d) :
    (FlateEncoder.EncodeBytes P ⟨11, 8, c, 1⟩ X).bind
      (FlateEncoder.DecodeStream P ⟨11, 8, c, 1⟩) = .ok X := by
  have hmod : X.length % c = 0 := by
    obtain ⟨k, hk⟩ := hdvd
    rw [hk]
    exact Nat.mul_mod_right c k
  have hspec := splitRowsGo_spec c hc X.length X le_rfl hdvd
  have hflat : (splitRows c X).flatten = X := hspec.1
  have huni : ∀ r ∈ splitRows c X, r.length = c := hspec.2
  have hbytes : ∀ r ∈ splitRows c X, ∀ x ∈ r, x < 256 := by
    intro r hr x hx
    exact hX x (by rw [← hflat]; exact List.mem_flatten.mpr ⟨r, hr, hx⟩)
  have huni' : ∀ e ∈ (splitRows c X).map (fun r => 1 :: pngSubRowEncode r),
      e.length = c + 1 := by
    intro e he
    obtain ⟨r, hr, rfl⟩ := List.mem_map.mp he
    simp [pngSubRowEncode_length, huni r hr]
  have hlen' : ((splitRows c X).map
        (fun r => 1 :: pngSubRowEncode r)).flatten.length =
      (splitRows c X).length * (c + 1) := by
    rw [flatten_length_uniform (c + 1) _ huni']
    simp
  have hrne : splitRows c X ≠ [] := by
    intro h
    rw [h] at hflat
    exact hne hflat.symm
  have hrpos : 0 < (splitRows c X).length := List.length_pos.mpr hrne
  have henc : FlateEncoder.EncodeBytes P ⟨11, 8, c, 1⟩ X =
      .ok (P.deflate (((splitRows c X).map
        (fun r => 1 :: pngSubRowEncode r)).flatten)) := by
    rw [FlateEncoder.EncodeBytes]
    simp [hc.ne', hmod]
    rfl
  have hpng : pngDecodeRowsFlate (c + 1) (((splitRows c X).map
        (fun r => 1 :: pngSubRowEncode r)).flatten) = .ok X := by
    rw [pngDecodeRowsFlate]
    rw [show splitRows (c + 1) (((splitRows c X).map
          (fun r => 1 :: pngSubRowEncode r)).flatten) =
        (splitRows c X).map (fun r => 1 :: pngSubRowEncode r) from
      splitRowsGo_join (c + 1) (by omega) _ _ huni' le_rfl]
    rw [pngDecodeRowsFlate_go_encode (splitRows c X) hbytes, hflat]
  have hm : (splitRows c X).length * (c + 1) % (c + 1) = 0 :=
    Nat.mul_mod_left _ _
  have hle : c + 1 ≤ (splitRows c X).length * (c + 1) := by
    calc c + 1 = 1 * (c + 1) := (one_mul _).symm
    _ ≤ (splitRows c X).length * (c + 1) := Nat.mul_le_mul_right _ hrpos
  have hdec : FlateEncoder.DecodeStream P ⟨11, 8, c, 1⟩
      (P.deflate (((splitRows c X).map
        (fun r => 1 :: pngSubRowEncode r)).flatten)) = .ok X := by
    rw [FlateEncoder.DecodeStream]
    simp only [hinf]
    simp [exceptBind_ok, hlen', hm, Nat.not_lt.mpr hle, hpng]
  rw [henc]
  exact hdec

/-- Claim C5, counterexample: three failures within the claim's stated
scope (predictor ∈ {1, 11}, input length a multiple of the row length).
The LZW encoder rejects predictor 11 outright; the flate predictor-11
encoder filters rows of `Columns` bytes while `DecodeStream` splits rows of
`Columns * Colors + 1` bytes, so any `Colors ≠ 1` (here 2×3 on a 6-byte
input) fails the decoder's row-length check; and the empty input (trivially
a length multiple) fails the decoder's range check because zero rows were
emitted.  Instantiated at the identity-compression primitive pack. -/
theorem c5_counterexample :
    (LZWEncoder.EncodeBytes toyPrims ⟨11, 8, 1, 1, 0⟩ [0] =
      .error .lzwPredictorUnsupported) ∧
    ((FlateEncoder.EncodeBytes toyPrims ⟨11, 8, 2, 3⟩ [1, 2, 3, 4, 5, 6]).bind
      (FlateEncoder.DecodeStream toyPrims ⟨11, 8, 2, 3⟩) =
      .error .invalidRowLength) ∧
    ((FlateEncoder.EncodeBytes toyPrims ⟨11, 8, 1, 1⟩ []).bind
      (FlateEncoder.DecodeStream toyPrims ⟨11, 8, 1, 1⟩) =
      .error .rangeCheck) := by
  refine ⟨rfl, ?_, ?_⟩ <;> decide

/-- Claim C5, amended: with 8 bits per component, `Colors = 1`, a positive
`Columns`, a nonempty byte-valued input whose length is a multiple of
`Columns`, and compression primitives satisfying their round-trip
contracts (`inflate ∘ deflate = ok`, non-early-change LZW decode inverts
encode), decode-of-encode is the identity for: the flate codec with
predictor 1, the flate codec with predictor 11 (encode, then
`DecodeStream` reverses the PNG sub filter), and the LZW codec with
predictor 1 and `EarlyChange = 0`.  The LZW codec supports no predictor-11
encoding at all, and `Colors ≠ 1` or an empty input break the flate
predictor-11 round trip (see the counterexample). -/
theorem c5_amended (P : ExtPrims) (c : Nat) (X : Bytes)
    (hc : 0 < c) (hX : ByteVals X) (hne : X ≠ []) (hdvd : c ∣ X.length)
    (hinf : ∀ d, P.inflate (P.deflate d) = .ok d)
    (hlzw : ∀ d, P.lzwDec0 (P.lzwComp0 d) = .ok d) :
    ((FlateEncoder.EncodeBytes P ⟨1, 8, c, 1⟩ X).bind
      (FlateEncoder.DecodeStream P ⟨1, 8, c, 1⟩) = .ok X) ∧
    ((FlateEncoder.EncodeBytes P ⟨11, 8, c, 1⟩ X).bind
      (FlateEncoder.DecodeStream P ⟨11, 8, c, 1⟩) = .ok X) ∧
    ((LZWEncoder.EncodeBytes P ⟨1, 8, c, 1, 0⟩ X).bind
      (LZWEncoder.DecodeStream P ⟨1, 8, c, 1, 0⟩) = .ok X) := by
  refine ⟨?_, flate11_encode_decode P c X hc hX hne hdvd hinf, ?_⟩
  · have h1 : FlateEncoder.EncodeBytes P ⟨1, 8, c, 1⟩ X =
        .ok (P.deflate X) := by
      rw [FlateEncoder.EncodeBytes]
      rfl
    rw [h1]
    show FlateEncoder.DecodeStream P ⟨1, 8, c, 1⟩ (P.deflate X) = .ok X
    rw [FlateEncoder.DecodeStream]
    simp [exceptBind_ok, hinf X]
  · have h2 : LZWEncoder.EncodeBytes P ⟨1, 8, c, 1, 0⟩ X =
        .ok (P.lzwComp0 X) := by
      rw [LZWEncoder.EncodeBytes]
      rfl
    rw [h2]
    show LZWEncoder.DecodeStream P ⟨1, 8, c, 1, 0⟩ (P.lzwComp0 X) = .ok X
    rw [LZWEncoder.DecodeStream]
    simp [LZWEncoder.DecodeBytes, exceptBind_ok, hlzw X]

/-- Witness for `c5_amended`: the three round trips on the 4-byte input
10 20 30 40 with 2-byte columns, under the identity-compression pack. -/
theorem c5_witness :
    (0 < 2 ∧ ByteVals [10, 20, 30, 40] ∧ ([10, 20, 30, 40] : Bytes) ≠ [] ∧
      2 ∣ ([10, 20, 30, 40] : Bytes).length) ∧
    ((FlateEncoder.EncodeBytes toyPrims ⟨1, 8, 2, 1⟩ [10, 20, 30, 40]).bind
      (FlateEncoder.DecodeStream toyPrims ⟨1, 8, 2, 1⟩) =
        .ok [10, 20, 30, 40]) ∧
    ((FlateEncoder.EncodeBytes toyPrims ⟨11, 8, 2, 1⟩ [10, 20, 30, 40]).bind
      (FlateEncoder.DecodeStream toyPrims ⟨11, 8, 2, 1⟩) =
        .ok [10, 20, 30, 40]) ∧
    ((LZWEncoder.EncodeBytes toyPrims ⟨1, 8, 2, 1, 0⟩ [10, 20, 30, 40]).bind
      (LZWEncoder.DecodeStream toyPrims ⟨1, 8, 2, 1, 0⟩) =
        .ok [10, 20, 30, 40]) :=
  ⟨by decide,
   c5_amended toyPrims 2 [10, 20, 30, 40] (by decide) (by decide)
     (by decide) (by decide) (fun d => rfl) (fun d => rfl)⟩


/-! ## Claim C1: codec round trips

Supporting developments: the ASCII-hex digit/character lemmas and the
collection/pairing inductions; the run-length encoder state-machine
invariant (a pending literal keeps `runLen = 0` and ends in `b0`, runs and
literals are flushed before exceeding 127) and the block-by-block decode
of its output; the ASCII85 group lemmas (digit collection, `u`-padding
arithmetic for partial trailing groups, the base-85/base-256 value
identities) and the group-by-group decode of its output. -/


namespace ASCIIHexEncoder

theorem hexVal_hexDigitUpper (d : Nat) (h : d < 16) :
    hexVal (hexDigitUpper d) = d := by
  by_cases h10 : d < 10
  · rw [hexDigitUpper, if_pos h10, hexVal, if_pos (by omega)]
    omega
  · rw [hexDigitUpper, if_neg h10, hexVal, if_neg (by omega),
      if_neg (by omega)]
    omega

theorem hexDigit_char_props (d : Nat) (h : d < 16) :
    hexDigitUpper d ≠ 62 ∧ IsWhiteSpace (hexDigitUpper d) = false ∧
      isHexChar (hexDigitUpper d) = true := by
  by_cases h10 : d < 10 <;>
    simp [hexDigitUpper, IsWhiteSpace, isHexChar, h10] <;> omega

theorem collectHex_encode (X : Bytes) (hX : ByteVals X) :
    collectHex ((X.flatMap fun b =>
        [hexDigitUpper (b / 16), hexDigitUpper (b % 16), 32]) ++ [62]) =
      .ok (X.flatMap fun b => [hexDigitUpper (b / 16), hexDigitUpper (b % 16)]) := by
  induction X with
  | nil => rfl
  | cons b rest ih =>
    have hb : b < 256 := hX b (by simp)
    have hhi := hexDigit_char_props (b / 16) (by omega)
    have hlo := hexDigit_char_props (b % 16) (by omega)
    have hstep : ∀ (c : Nat) (rest : Bytes), collectHex (c :: rest) =
        (if c = 62 then .ok []
         else if IsWhiteSpace c then collectHex rest
         else if isHexChar c then (c :: ·) <$> collectHex rest
         else .error .invalidHexChar) := fun c rest => rfl
    simp only [List.flatMap_cons, List.cons_append, List.append_assoc,
      List.nil_append]
    rw [hstep]
    rw [if_neg hhi.1, if_neg (by simp [hhi.2.1]), if_pos hhi.2.2, hstep]
    rw [if_neg hlo.1, if_neg (by simp [hlo.2.1]), if_pos hlo.2.2, hstep]
    rw [if_neg (by omega), if_pos (by simp [IsWhiteSpace])]
    rw [ih (fun x hx => hX x (by simp [hx]))]
    rfl

theorem decodePairs_encode (X : Bytes) (hX : ByteVals X) :
    decodePairs (X.flatMap fun b =>
        [hexDigitUpper (b / 16), hexDigitUpper (b % 16)]) = X := by
  induction X with
  | nil => rfl
  | cons b rest ih =>
    have hb : b < 256 := hX b (by simp)
    rw [List.flatMap_cons]
    show decodePairs (hexDigitUpper (b / 16) :: hexDigitUpper (b % 16) ::
      (rest.flatMap fun b => [hexDigitUpper (b / 16), hexDigitUpper (b % 16)])) = _
    rw [decodePairs]
    rw [hexVal_hexDigitUpper (b / 16) (by omega),
      hexVal_hexDigitUpper (b % 16) (by omega),
      ih (fun x hx => hX x (by simp [hx]))]
    congr 1
    omega

theorem pairs_length (X : Bytes) :
    (X.flatMap fun b =>
      [hexDigitUpper (b / 16), hexDigitUpper (b % 16)]).length = 2 * X.length := by
  induction X with
  | nil => rfl
  | cons b rest ih =>
    rw [List.flatMap_cons]
    simp [ih]
    omega

theorem hex_roundtrip (X : Bytes) (hX : ByteVals X) :
    (EncodeBytes X).bind DecodeBytes = .ok X := by
  rw [EncodeBytes]
  show DecodeBytes _ = _
  rw [DecodeBytes]
  simp only [collectHex_encode X hX, exceptBind_ok, pairs_length,
    Nat.mul_mod_right]
  simp [decodePairs_encode X hX]
  rfl

end ASCIIHexEncoder

namespace RunLengthEncoder

theorem decode_run (fuel r v : Nat) (xs : Bytes) (hr : 128 < r) :
    decodeGo (fuel + 1) (r :: v :: xs) =
      (fun tail => List.replicate (257 - r) v ++ tail) <$> decodeGo fuel xs := by
  show (if r > 128 then
          (fun tail => List.replicate (257 - r) v ++ tail) <$> decodeGo fuel xs
        else if r < 128 then
          if r + 1 ≤ (v :: xs).length then
            (fun tail => (v :: xs).take (r + 1) ++ tail) <$>
              decodeGo fuel ((v :: xs).drop (r + 1))
          else .error .eof
        else .ok []) = _
  rw [if_pos hr]

theorem decode_lit (fuel b : Nat) (lit xs : Bytes) (hb : b < 128)
    (hlen : lit.length = b + 1) :
    decodeGo (fuel + 1) (b :: (lit ++ xs)) =
      (fun tail => lit ++ tail) <$> decodeGo fuel xs := by
  obtain ⟨l0, ltl, rfl⟩ : ∃ a l, lit = a :: l := by
    cases lit with
    | nil => simp at hlen
    | cons a l => exact ⟨a, l, rfl⟩
  rw [List.cons_append]
  show (if b > 128 then
          (fun tail => List.replicate (257 - b) l0 ++ tail) <$>
            decodeGo fuel (ltl ++ xs)
        else if b < 128 then
          if b + 1 ≤ (ltl ++ xs).length + 1 then
            (fun tail => (l0 :: (ltl ++ xs)).take (b + 1) ++ tail) <$>
              decodeGo fuel ((l0 :: (ltl ++ xs)).drop (b + 1))
          else .error .eof
        else .ok []) = _
  rw [if_neg (by omega), if_pos hb,
    if_pos (by simp at hlen ⊢; omega)]
  rw [show l0 :: (ltl ++ xs) = (l0 :: ltl) ++ xs from rfl,
    List.take_append_of_le_length hlen.ge, List.take_of_length_le hlen.le,
    List.drop_append_of_le_length hlen.ge, List.drop_of_length_le hlen.le,
    List.nil_append]

theorem decode_end (fuel : Nat) : decodeGo (fuel + 1) [128] = .ok [] := by
  show (if 128 > 128 then Except.error Err.eof
        else if 128 < 128 then
          if 128 + 1 ≤ ([] : Bytes).length then
            (fun tail => ([] : Bytes).take (128 + 1) ++ tail) <$>
              decodeGo fuel (([] : Bytes).drop (128 + 1))
          else .error .eof
        else .ok []) = .ok []
  rw [if_neg (by omega), if_neg (by omega)]

theorem exceptMap_ok {ε α β : Type} (f : α → β) (a : α) :
    (f <$> (Except.ok a : Except ε α)) = .ok (f a) := rfl

theorem rlRun_decode (rest : Bytes) : ∀ (s : RLState) (fuel : Nat),
    (s.runLen > 0 → s.literal = []) →
    (s.literal ≠ [] → s.runLen = 0 ∧ s.literal.getLast? = some s.b0) →
    s.runLen ≤ 126 → s.literal.length ≤ 126 →
    (rlRun s rest).length ≤ fuel →
    decodeGo fuel (rlRun s rest) =
      .ok (s.literal ++ List.replicate s.runLen s.b0 ++ rest) := by
  induction rest with
  | nil =>
    intro s fuel hrl hlit hrb hlb hfuel
    rw [rlRun] at hfuel ⊢
    by_cases hL : s.literal = []
    · by_cases hR : s.runLen = 0
      · rw [rlFinish, if_neg (by simp [hL]), if_neg (by omega)] at hfuel ⊢
        obtain ⟨f, rfl⟩ : ∃ f, fuel = f + 1 := by
          cases fuel with
          | zero => simp at hfuel
          | succ f => exact ⟨f, rfl⟩
        rw [List.nil_append, decode_end]
        simp [hL, hR]
      · rw [rlFinish, if_neg (by simp [hL]), if_pos (by omega)] at hfuel ⊢
        by_cases h1 : s.runLen = 1
        · rw [show (257 - s.runLen) % 256 = 0 from by omega]
          simp only [List.cons_append, List.nil_append, List.length_nil,
            List.length_cons] at hfuel ⊢
          obtain ⟨f, rfl⟩ : ∃ f, fuel = f + 1 := by
            cases fuel with
            | zero => simp at hfuel
            | succ f => exact ⟨f, rfl⟩
          rw [show (0 : Nat) :: s.b0 :: [128] = 0 :: ([s.b0] ++ [128])
              from rfl,
            decode_lit f 0 [s.b0] [128] (by omega) rfl]
          obtain ⟨f', rfl⟩ : ∃ f', f = f' + 1 := by
            cases f with
            | zero => omega
            | succ f' => exact ⟨f', rfl⟩
          rw [decode_end, exceptMap_ok]
          simp [hL, h1]
        · rw [show (257 - s.runLen) % 256 = 257 - s.runLen from by omega]
          simp only [List.cons_append, List.nil_append, List.length_nil,
            List.length_cons] at hfuel ⊢
          obtain ⟨f, rfl⟩ : ∃ f, fuel = f + 1 := by
            cases fuel with
            | zero => simp at hfuel
            | succ f => exact ⟨f, rfl⟩
          rw [decode_run f (257 - s.runLen) s.b0 [128] (by omega)]
          obtain ⟨f', rfl⟩ : ∃ f', f = f' + 1 := by
            cases f with
            | zero => omega
            | succ f' => exact ⟨f', rfl⟩
          rw [decode_end, exceptMap_ok,
            show 257 - (257 - s.runLen) = s.runLen from by omega]
          simp [hL]
    · obtain ⟨hR0, -⟩ := hlit hL
      rw [rlFinish, if_pos (by simp [hL])] at hfuel ⊢
      have hlen1 : 0 < s.literal.length := List.length_pos.mpr hL
      simp only [List.cons_append, List.length_cons, List.length_nil,
        List.length_append] at hfuel ⊢
      obtain ⟨f, rfl⟩ : ∃ f, fuel = f + 1 := by
        cases fuel with
        | zero => simp at hfuel
        | succ f => exact ⟨f, rfl⟩
      rw [decode_lit f (s.literal.length - 1) s.literal [128]
        (by omega) (by omega)]
      obtain ⟨f', rfl⟩ : ∃ f', f = f' + 1 := by
        cases f with
        | zero => exfalso; omega
        | succ f' => exact ⟨f', rfl⟩
      rw [decode_end, exceptMap_ok]
      simp [hR0]
  | cons b rest' ih =>
    intro s fuel hrl hlit hrb hlb hfuel
    have hrun : rlRun s (b :: rest') =
        (rlStep s b).1 ++ rlRun (rlStep s b).2 rest' := rfl
    rw [hrun] at hfuel ⊢
    by_cases hb : b = s.b0
    · by_cases hL : s.literal = []
      · by_cases h127 : s.runLen + 1 ≥ 127
        · have h126 : s.runLen = 126 := by omega
          have hstep : rlStep s b = ([130, s.b0], ⟨s.b0, 0, []⟩) := by
            simp [rlStep, hb, hL, h126]
          rw [hstep] at hfuel ⊢
          simp only [List.cons_append, List.nil_append, List.length_nil,
            List.length_cons] at hfuel ⊢
          obtain ⟨f, rfl⟩ : ∃ f, fuel = f + 1 := by
            cases fuel with
            | zero => simp at hfuel
            | succ f => exact ⟨f, rfl⟩
          rw [decode_run f 130 s.b0 _ (by omega),
            ih ⟨s.b0, 0, []⟩ f (by simp) (by simp) (by simp) (by simp)
              (by omega),
            exceptMap_ok]
          congr 1
          rw [show (257 - 130 : Nat) = 126 + 1 from rfl, List.replicate_succ']
          simp [hL, h126, hb]
        · have hstep : rlStep s b = ([], ⟨s.b0, s.runLen + 1, []⟩) := by
            simp [rlStep, hb, hL, h127]
          rw [hstep] at hfuel ⊢
          simp only [List.nil_append] at hfuel ⊢
          rw [ih ⟨s.b0, s.runLen + 1, []⟩ fuel (by simp) (by simp)
            (by simp; omega) (by simp) hfuel]
          congr 1
          rw [List.replicate_succ']
          simp [hL, hb]
      · obtain ⟨hR0, hgl⟩ := hlit hL
        have hsplit : s.literal.dropLast ++ [s.b0] = s.literal := by
          conv_rhs => rw [← List.dropLast_append_getLast? s.b0 hgl]
        by_cases hlit' : s.literal.dropLast = []
        · have hone : s.literal = [s.b0] := by
            rw [← hsplit, hlit', List.nil_append]
          have hstep : rlStep s b = ([], ⟨s.b0, 2, []⟩) := by
            simp [rlStep, hb, hL, hlit']
          rw [hstep] at hfuel ⊢
          simp only [List.nil_append] at hfuel ⊢
          rw [ih ⟨s.b0, 2, []⟩ fuel (by simp) (by simp) (by simp)
            (by simp) hfuel]
          congr 1
          simp [hone, hR0, hb, List.replicate_succ]
        · have hstep : rlStep s b =
              ((s.literal.dropLast.length - 1) :: s.literal.dropLast,
                ⟨s.b0, 2, []⟩) := by
            simp [rlStep, hb, hL, hlit']
          rw [hstep] at hfuel ⊢
          have hdl : s.literal.dropLast.length = s.literal.length - 1 := by
            simp
          have hlen1 : 0 < s.literal.dropLast.length :=
            List.length_pos.mpr hlit'
          simp only [List.cons_append, List.length_cons, List.length_nil,
            List.length_append] at hfuel ⊢
          obtain ⟨f, rfl⟩ : ∃ f, fuel = f + 1 := by
            cases fuel with
            | zero => simp at hfuel
            | succ f => exact ⟨f, rfl⟩
          rw [decode_lit f (s.literal.dropLast.length - 1)
              s.literal.dropLast _ (by omega) (by omega),
            ih ⟨s.b0, 2, []⟩ f (by simp) (by simp) (by simp) (by simp)
              (by simp at hfuel; omega),
            exceptMap_ok]
          congr 1
          rw [← hsplit]
          simp [hR0, hb, List.replicate_succ]
    · by_cases hR : s.runLen > 0
      · have hL : s.literal = [] := hrl hR
        by_cases h1 : s.runLen = 1
        · have hstep : rlStep s b = ([], ⟨b, 0, [s.b0, b]⟩) := by
            simp [rlStep, hb, h1, hL]
          rw [hstep] at hfuel ⊢
          simp only [List.nil_append] at hfuel ⊢
          rw [ih ⟨b, 0, [s.b0, b]⟩ fuel (by simp) (by simp) (by simp)
            (by simp) hfuel]
          congr 1
          simp [hL, h1]
        · have hstep : rlStep s b =
              ([(257 - s.runLen) % 256, s.b0], ⟨b, 0, [b]⟩) := by
            simp [rlStep, hb, h1, hL, hR]
          rw [hstep] at hfuel ⊢
          rw [show (257 - s.runLen) % 256 = 257 - s.runLen from by omega]
            at hfuel ⊢
          simp only [List.cons_append, List.nil_append, List.length_nil,
            List.length_cons] at hfuel ⊢
          obtain ⟨f, rfl⟩ : ∃ f, fuel = f + 1 := by
            cases fuel with
            | zero => simp at hfuel
            | succ f => exact ⟨f, rfl⟩
          rw [decode_run f (257 - s.runLen) s.b0 _ (by omega),
            ih ⟨b, 0, [b]⟩ f (by simp) (by simp) (by simp) (by simp)
              (by omega),
            exceptMap_ok,
            show 257 - (257 - s.runLen) = s.runLen from by omega]
          congr 1
          simp [hL]
      · have hR0 : s.runLen = 0 := by omega
        by_cases h127 : (s.literal ++ [b]).length ≥ 127
        · have h127' : 126 ≤ s.literal.length := by
            simp only [List.length_append, List.length_cons,
              List.length_nil] at h127
            omega
          have hstep : rlStep s b =
              (((s.literal ++ [b]).length - 1) :: (s.literal ++ [b]),
                ⟨b, 0, []⟩) := by
            simp [rlStep, hb, hR0, h127']
          rw [hstep] at hfuel ⊢
          have hl2 : (s.literal ++ [b]).length = s.literal.length + 1 := by
            simp
          simp only [List.cons_append, List.length_cons, List.length_nil,
            List.length_append] at hfuel
          rw [List.cons_append]
          obtain ⟨f, rfl⟩ : ∃ f, fuel = f + 1 := by
            cases fuel with
            | zero => exfalso; omega
            | succ f => exact ⟨f, rfl⟩
          rw [decode_lit f ((s.literal ++ [b]).length - 1)
              (s.literal ++ [b]) _ (by omega) (by omega),
            ih ⟨b, 0, []⟩ f (by simp) (by simp) (by simp) (by simp)
              (by omega),
            exceptMap_ok]
          congr 1
          simp [hR0]
        · have h127n : ¬ 126 ≤ s.literal.length := by
            simp only [List.length_append, List.length_cons,
              List.length_nil] at h127
            omega
          have hstep : rlStep s b = ([], ⟨b, 0, s.literal ++ [b]⟩) := by
            simp [rlStep, hb, hR0, h127n]
          rw [hstep] at hfuel ⊢
          simp only [List.nil_append] at hfuel ⊢
          rw [ih ⟨b, 0, s.literal ++ [b]⟩ fuel (by simp)
            (by simp)
            (by simp) (by simp at h127 ⊢; omega) hfuel]
          congr 1
          simp [hR0]

theorem rl_roundtrip (X : Bytes) (hne : X ≠ []) :
    (EncodeBytes X).bind DecodeBytes = .ok X := by
  obtain ⟨b0, rest, rfl⟩ : ∃ a l, X = a :: l := by
    cases X with
    | nil => exact absurd rfl hne
    | cons a l => exact ⟨a, l, rfl⟩
  have henc : EncodeBytes (b0 :: rest) = .ok (rlRun ⟨b0, 1, []⟩ rest) := rfl
  rw [henc]
  show DecodeBytes (rlRun ⟨b0, 1, []⟩ rest) = _
  rw [DecodeBytes,
    rlRun_decode rest ⟨b0, 1, []⟩ _ (by simp) (by simp) (by simp)
      (by simp) le_rfl]
  simp

end RunLengthEncoder

namespace ASCII85Encoder

theorem collectGroup_step (c : Nat) (rest codes : Bytes) :
    collectGroup (c :: rest) codes =
      (if codes.length ≥ 5 then .ok (codes, 4, c :: rest, false)
       else if IsWhiteSpace c then collectGroup rest codes
       else if c = 126 ∧ rest.headD 0 = 62 ∧ rest ≠ [] then
         .ok (codes, codes.length - 1, c :: rest, true)
       else if 33 ≤ c ∧ c ≤ 117 then collectGroup rest (codes ++ [c - 33])
       else if c = 122 ∧ codes = [] then .ok (codes, 4, rest, false)
       else .error .invalidCode) := rfl

theorem ws_ge33 (c : Nat) (h : 33 ≤ c) : IsWhiteSpace c = false := by
  simp [IsWhiteSpace]
  omega

theorem collectGroup_digits (ds : Bytes) : ∀ (codes inp : Bytes),
    (∀ d ∈ ds, 33 ≤ d ∧ d ≤ 117) → codes.length + ds.length ≤ 5 →
    collectGroup (ds ++ inp) codes =
      collectGroup inp (codes ++ ds.map (· - 33)) := by
  induction ds with
  | nil => intro codes inp _ _; simp
  | cons d ds ih =>
    intro codes inp hds hlen
    have hd := hds d (by simp)
    rw [List.cons_append, collectGroup_step,
      if_neg (by simp at hlen ⊢; omega),
      if_neg (by simp [ws_ge33 d hd.1]),
      if_neg (by rintro ⟨h126, -⟩; omega),
      if_pos hd,
      ih (codes ++ [d - 33]) inp (fun x hx => hds x (by simp [hx]))
        (by simp at hlen ⊢; omega)]
    simp

theorem collectGroup_full (codes inp : Bytes) (h : codes.length ≥ 5) :
    collectGroup inp codes = .ok (codes, 4, inp, false) := by
  cases inp with
  | nil =>
    show (if codes.length ≥ 5 then
            (Except.ok (codes, 4, ([] : Bytes), false) :
              Except Err (Bytes × Nat × Bytes × Bool))
          else .ok (codes, 4, [], false)) = _
    rw [if_pos h]
  | cons c rest =>
    rw [collectGroup_step, if_pos h]

theorem collectGroup_eod (codes : Bytes) (h5 : codes.length < 5) :
    collectGroup [126, 62] codes =
      .ok (codes, codes.length - 1, [126, 62], true) := by
  rw [collectGroup_step, if_neg (by omega), if_neg (by simp [IsWhiteSpace]),
    if_pos ⟨rfl, rfl, by simp⟩]

theorem collectGroup_z (rest : Bytes) :
    collectGroup (122 :: rest) [] = .ok ([], 4, rest, false) := by
  rw [collectGroup_step, if_neg (by simp), if_neg (by simp [IsWhiteSpace]),
    if_neg (by rintro ⟨h126, -⟩; omega), if_neg (by rintro ⟨-, h⟩; omega),
    if_pos ⟨rfl, rfl⟩]

theorem decodeLoop_go (fuel c : Nat) (inp codes rest : Bytes) (t : Nat)
    (hcol : collectGroup (c :: inp) [] = .ok (codes, t, rest, false)) :
    decodeLoop (fuel + 1) (c :: inp) =
      (match decodeLoop fuel rest with
       | .error e => .error e
       | .ok tail =>
         .ok ((valueBytes (groupValue (padCodes codes t))).take t ++ tail)) := by
  have hred : decodeLoop (fuel + 1) (c :: inp) =
      (match collectGroup (c :: inp) [] with
       | .error e => .error e
       | .ok (codes, toWrite, rest, eod) =>
         let decodedBytes := valueBytes (groupValue (padCodes codes toWrite))
         if eod then .ok (decodedBytes.take toWrite)
         else
           match decodeLoop fuel rest with
           | .error e => .error e
           | .ok tail => .ok (decodedBytes.take toWrite ++ tail)) := rfl
  rw [hred, hcol]
  rfl

theorem decodeLoop_eod (fuel c : Nat) (inp codes rest : Bytes) (t : Nat)
    (hcol : collectGroup (c :: inp) [] = .ok (codes, t, rest, true)) :
    decodeLoop (fuel + 1) (c :: inp) =
      .ok ((valueBytes (groupValue (padCodes codes t))).take t) := by
  have hred : decodeLoop (fuel + 1) (c :: inp) =
      (match collectGroup (c :: inp) [] with
       | .error e => .error e
       | .ok (codes, toWrite, rest, eod) =>
         let decodedBytes := valueBytes (groupValue (padCodes codes toWrite))
         if eod then .ok (decodedBytes.take toWrite)
         else
           match decodeLoop fuel rest with
           | .error e => .error e
           | .ok tail => .ok (decodedBytes.take toWrite ++ tail)) := rfl
  rw [hred, hcol]
  rfl

theorem map_addsub (l : Bytes) : (l.map (· + 33)).map (· - 33) = l := by
  induction l with
  | nil => rfl
  | cons a l ih => simp [ih]

theorem digit_le (v : Nat) (hv : v < 2 ^ 32) :
    ∀ d ∈ base256Tobase85 v, d ≤ 84 := by
  intro d hd
  have h4 : (85 : Nat) ^ 4 = 52200625 := by norm_num
  have h3 : (85 : Nat) ^ 3 = 614125 := by norm_num
  have h2 : (85 : Nat) ^ 2 = 7225 := by norm_num
  simp [base256Tobase85, h4, h3, h2] at hd
  rcases hd with h | h | h | h | h <;> omega

theorem digits_value (v : Nat) (hv : v < 2 ^ 32) :
    groupValue (padCodes (base256Tobase85 v) 4) = v := by
  show (v / 52200625 * 52200625 + v / 614125 % 85 * 614125 +
      v / 7225 % 85 * 7225 + v / 85 % 85 * 85 + v % 85) % 4294967296 = v
  have h1 : v / 614125 / 85 = v / 52200625 := by
    rw [Nat.div_div_eq_div_mul]
  have h2 : v / 7225 / 85 = v / 614125 := by
    rw [Nat.div_div_eq_div_mul]
  have h3 : v / 85 / 85 = v / 7225 := by
    rw [Nat.div_div_eq_div_mul]
  have t1 : v / 52200625 * 52200625 + v / 614125 % 85 * 614125 =
      v / 614125 * 614125 := by omega
  have t2 : v / 614125 * 614125 + v / 7225 % 85 * 7225 =
      v / 7225 * 7225 := by omega
  have t3 : v / 7225 * 7225 + v / 85 % 85 * 85 = v / 85 * 85 := by omega
  omega

theorem valueBytes_pack (b1 b2 b3 b4 : Nat) (h1 : b1 < 256) (h2 : b2 < 256)
    (h3 : b3 < 256) (h4 : b4 < 256) :
    valueBytes (b1 * 2 ^ 24 + b2 * 2 ^ 16 + b3 * 2 ^ 8 + b4) =
      [b1, b2, b3, b4] := by
  simp only [valueBytes, List.cons.injEq, and_true]
  refine ⟨?_, ?_, ?_, ?_⟩ <;> omega

theorem full_value (b1 b2 b3 b4 : Nat) (h1 : b1 < 256) (h2 : b2 < 256)
    (h3 : b3 < 256) (h4 : b4 < 256) :
    (valueBytes (groupValue (padCodes
      (base256Tobase85 (b1 * 2 ^ 24 + b2 * 2 ^ 16 + b3 * 2 ^ 8 + b4))
      4))).take 4 = [b1, b2, b3, b4] := by
  have hv : b1 * 2 ^ 24 + b2 * 2 ^ 16 + b3 * 2 ^ 8 + b4 < 2 ^ 32 := by omega
  rw [digits_value _ hv, valueBytes_pack b1 b2 b3 b4 h1 h2 h3 h4]
  rfl

theorem partial1 (b1 : Nat) (h1 : b1 < 256) :
    (valueBytes (groupValue (padCodes
      ((base256Tobase85 (b1 * 2 ^ 24 + 0 * 2 ^ 16 + 0 * 2 ^ 8 + 0)).take 2)
      1))).take 1 = [b1] := by
  show [((b1 * 2 ^ 24 + 0 * 2 ^ 16 + 0 * 2 ^ 8 + 0) / 52200625 * 52200625 +
      (b1 * 2 ^ 24 + 0 * 2 ^ 16 + 0 * 2 ^ 8 + 0) / 614125 % 85 * 614125 +
      84 * 7225 + 84 * 85 + 84) % 4294967296 / 2 ^ 24 % 256] = [b1]
  have hd1 : (b1 * 2 ^ 24 + 0 * 2 ^ 16 + 0 * 2 ^ 8 + 0) / 614125 / 85 =
      (b1 * 2 ^ 24 + 0 * 2 ^ 16 + 0 * 2 ^ 8 + 0) / 52200625 := by
    rw [Nat.div_div_eq_div_mul]
  rw [show (b1 * 2 ^ 24 + 0 * 2 ^ 16 + 0 * 2 ^ 8 + 0) / 52200625 * 52200625 +
      (b1 * 2 ^ 24 + 0 * 2 ^ 16 + 0 * 2 ^ 8 + 0) / 614125 % 85 * 614125 +
      84 * 7225 + 84 * 85 + 84 =
      (b1 * 2 ^ 24 + 0 * 2 ^ 16 + 0 * 2 ^ 8 + 0) / 614125 * 614125 + 614124 from by omega]
  have hlt : (b1 * 2 ^ 24 + 0 * 2 ^ 16 + 0 * 2 ^ 8 + 0) / 614125 * 614125 + 614124 < 4294967296 := by omega
  rw [Nat.mod_eq_of_lt hlt]
  simp only [List.cons.injEq, and_true]
  rw [show (b1 * 2 ^ 24 + 0 * 2 ^ 16 + 0 * 2 ^ 8 + 0) / 614125 * 614125 + 614124 =
      2 ^ 24 * b1 + (614124 - (b1 * 2 ^ 24 + 0 * 2 ^ 16 + 0 * 2 ^ 8 + 0) % 614125) from by omega,
    Nat.mul_add_div (by norm_num), Nat.div_eq_of_lt (by omega),
    Nat.add_zero, Nat.mod_eq_of_lt h1]

theorem partial2 (b1 b2 : Nat) (h1 : b1 < 256) (h2 : b2 < 256) :
    (valueBytes (groupValue (padCodes
      ((base256Tobase85 (b1 * 2 ^ 24 + b2 * 2 ^ 16 + 0 * 2 ^ 8 + 0)).take 3)
      2))).take 2 = [b1, b2] := by
  show [((b1 * 2 ^ 24 + b2 * 2 ^ 16 + 0 * 2 ^ 8 + 0) / 52200625 * 52200625 +
      (b1 * 2 ^ 24 + b2 * 2 ^ 16 + 0 * 2 ^ 8 + 0) / 614125 % 85 * 614125 +
      (b1 * 2 ^ 24 + b2 * 2 ^ 16 + 0 * 2 ^ 8 + 0) / 7225 % 85 * 7225 +
      84 * 85 + 84) % 4294967296 / 2 ^ 24 % 256,
    ((b1 * 2 ^ 24 + b2 * 2 ^ 16 + 0 * 2 ^ 8 + 0) / 52200625 * 52200625 +
      (b1 * 2 ^ 24 + b2 * 2 ^ 16 + 0 * 2 ^ 8 + 0) / 614125 % 85 * 614125 +
      (b1 * 2 ^ 24 + b2 * 2 ^ 16 + 0 * 2 ^ 8 + 0) / 7225 % 85 * 7225 +
      84 * 85 + 84) % 4294967296 / 2 ^ 16 % 256] = [b1, b2]
  have hd1 : (b1 * 2 ^ 24 + b2 * 2 ^ 16 + 0 * 2 ^ 8 + 0) / 614125 / 85 =
      (b1 * 2 ^ 24 + b2 * 2 ^ 16 + 0 * 2 ^ 8 + 0) / 52200625 := by
    rw [Nat.div_div_eq_div_mul]
  have hd2 : (b1 * 2 ^ 24 + b2 * 2 ^ 16 + 0 * 2 ^ 8 + 0) / 7225 / 85 =
      (b1 * 2 ^ 24 + b2 * 2 ^ 16 + 0 * 2 ^ 8 + 0) / 614125 := by
    rw [Nat.div_div_eq_div_mul]
  rw [show (b1 * 2 ^ 24 + b2 * 2 ^ 16 + 0 * 2 ^ 8 + 0) / 52200625 * 52200625 +
      (b1 * 2 ^ 24 + b2 * 2 ^ 16 + 0 * 2 ^ 8 + 0) / 614125 % 85 * 614125 +
      (b1 * 2 ^ 24 + b2 * 2 ^ 16 + 0 * 2 ^ 8 + 0) / 7225 % 85 * 7225 +
      84 * 85 + 84 =
      (b1 * 2 ^ 24 + b2 * 2 ^ 16 + 0 * 2 ^ 8 + 0) / 7225 * 7225 + 7224 from by omega]
  have hlt : (b1 * 2 ^ 24 + b2 * 2 ^ 16 + 0 * 2 ^ 8 + 0) / 7225 * 7225 + 7224 < 4294967296 := by omega
  rw [Nat.mod_eq_of_lt hlt]
  simp only [List.cons.injEq, and_true]
  refine ⟨?_, ?_⟩
  · rw [show (b1 * 2 ^ 24 + b2 * 2 ^ 16 + 0 * 2 ^ 8 + 0) / 7225 * 7225 + 7224 =
        2 ^ 24 * b1 + (b2 * 2 ^ 16 + (7224 - (b1 * 2 ^ 24 + b2 * 2 ^ 16 + 0 * 2 ^ 8 + 0) % 7225)) from by omega,
      Nat.mul_add_div (by norm_num), Nat.div_eq_of_lt (by omega),
      Nat.add_zero, Nat.mod_eq_of_lt h1]
  · rw [show (b1 * 2 ^ 24 + b2 * 2 ^ 16 + 0 * 2 ^ 8 + 0) / 7225 * 7225 + 7224 =
        2 ^ 16 * (b1 * 256 + b2) + (7224 - (b1 * 2 ^ 24 + b2 * 2 ^ 16 + 0 * 2 ^ 8 + 0) % 7225) from by omega,
      Nat.mul_add_div (by norm_num), Nat.div_eq_of_lt (by omega),
      Nat.add_zero]
    omega

theorem partial3 (b1 b2 b3 : Nat) (h1 : b1 < 256) (h2 : b2 < 256)
    (h3 : b3 < 256) :
    (valueBytes (groupValue (padCodes
      ((base256Tobase85 (b1 * 2 ^ 24 + b2 * 2 ^ 16 + b3 * 2 ^ 8 + 0)).take 4)
      3))).take 3 = [b1, b2, b3] := by
  show [((b1 * 2 ^ 24 + b2 * 2 ^ 16 + b3 * 2 ^ 8 + 0) / 52200625 * 52200625 +
      (b1 * 2 ^ 24 + b2 * 2 ^ 16 + b3 * 2 ^ 8 + 0) / 614125 % 85 * 614125 +
      (b1 * 2 ^ 24 + b2 * 2 ^ 16 + b3 * 2 ^ 8 + 0) / 7225 % 85 * 7225 +
      (b1 * 2 ^ 24 + b2 * 2 ^ 16 + b3 * 2 ^ 8 + 0) / 85 % 85 * 85 +
      84) % 4294967296 / 2 ^ 24 % 256,
    ((b1 * 2 ^ 24 + b2 * 2 ^ 16 + b3 * 2 ^ 8 + 0) / 52200625 * 52200625 +
      (b1 * 2 ^ 24 + b2 * 2 ^ 16 + b3 * 2 ^ 8 + 0) / 614125 % 85 * 614125 +
      (b1 * 2 ^ 24 + b2 * 2 ^ 16 + b3 * 2 ^ 8 + 0) / 7225 % 85 * 7225 +
      (b1 * 2 ^ 24 + b2 * 2 ^ 16 + b3 * 2 ^ 8 + 0) / 85 % 85 * 85 +
      84) % 4294967296 / 2 ^ 16 % 256,
    ((b1 * 2 ^ 24 + b2 * 2 ^ 16 + b3 * 2 ^ 8 + 0) / 52200625 * 52200625 +
      (b1 * 2 ^ 24 + b2 * 2 ^ 16 + b3 * 2 ^ 8 + 0) / 614125 % 85 * 614125 +
      (b1 * 2 ^ 24 + b2 * 2 ^ 16 + b3 * 2 ^ 8 + 0) / 7225 % 85 * 7225 +
      (b1 * 2 ^ 24 + b2 * 2 ^ 16 + b3 * 2 ^ 8 + 0) / 85 % 85 * 85 +
      84) % 4294967296 / 2 ^ 8 % 256] = [b1, b2, b3]
  have hd1 : (b1 * 2 ^ 24 + b2 * 2 ^ 16 + b3 * 2 ^ 8 + 0) / 614125 / 85 =
      (b1 * 2 ^ 24 + b2 * 2 ^ 16 + b3 * 2 ^ 8 + 0) / 52200625 := by
    rw [Nat.div_div_eq_div_mul]
  have hd2 : (b1 * 2 ^ 24 + b2 * 2 ^ 16 + b3 * 2 ^ 8 + 0) / 7225 / 85 =
      (b1 * 2 ^ 24 + b2 * 2 ^ 16 + b3 * 2 ^ 8 + 0) / 614125 := by
    rw [Nat.div_div_eq_div_mul]
  have hd3 : (b1 * 2 ^ 24 + b2 * 2 ^ 16 + b3 * 2 ^ 8 + 0) / 85 / 85 =
      (b1 * 2 ^ 24 + b2 * 2 ^ 16 + b3 * 2 ^ 8 + 0) / 7225 := by
    rw [Nat.div_div_eq_div_mul]
  rw [show (b1 * 2 ^ 24 + b2 * 2 ^ 16 + b3 * 2 ^ 8 + 0) / 52200625 * 52200625 +
      (b1 * 2 ^ 24 + b2 * 2 ^ 16 + b3 * 2 ^ 8 + 0) / 614125 % 85 * 614125 +
      (b1 * 2 ^ 24 + b2 * 2 ^ 16 + b3 * 2 ^ 8 + 0) / 7225 % 85 * 7225 +
      (b1 * 2 ^ 24 + b2 * 2 ^ 16 + b3 * 2 ^ 8 + 0) / 85 % 85 * 85 +
      84 =
      (b1 * 2 ^ 24 + b2 * 2 ^ 16 + b3 * 2 ^ 8 + 0) / 85 * 85 + 84 from by omega]
  have hlt : (b1 * 2 ^ 24 + b2 * 2 ^ 16 + b3 * 2 ^ 8 + 0) / 85 * 85 + 84 < 4294967296 := by omega
  rw [Nat.mod_eq_of_lt hlt]
  simp only [List.cons.injEq, and_true]
  refine ⟨?_, ?_, ?_⟩
  · rw [show (b1 * 2 ^ 24 + b2 * 2 ^ 16 + b3 * 2 ^ 8 + 0) / 85 * 85 + 84 =
        2 ^ 24 * b1 + (b2 * 2 ^ 16 + b3 * 2 ^ 8 + (84 - (b1 * 2 ^ 24 + b2 * 2 ^ 16 + b3 * 2 ^ 8 + 0) % 85))
        from by omega,
      Nat.mul_add_div (by norm_num), Nat.div_eq_of_lt (by omega),
      Nat.add_zero, Nat.mod_eq_of_lt h1]
  · rw [show (b1 * 2 ^ 24 + b2 * 2 ^ 16 + b3 * 2 ^ 8 + 0) / 85 * 85 + 84 =
        2 ^ 16 * (b1 * 256 + b2) + (b3 * 2 ^ 8 + (84 - (b1 * 2 ^ 24 + b2 * 2 ^ 16 + b3 * 2 ^ 8 + 0) % 85))
        from by omega,
      Nat.mul_add_div (by norm_num), Nat.div_eq_of_lt (by omega),
      Nat.add_zero]
    omega
  · rw [show (b1 * 2 ^ 24 + b2 * 2 ^ 16 + b3 * 2 ^ 8 + 0) / 85 * 85 + 84 =
        2 ^ 8 * (b1 * 65536 + b2 * 256 + b3) + (84 - (b1 * 2 ^ 24 + b2 * 2 ^ 16 + b3 * 2 ^ 8 + 0) % 85)
        from by omega,
      Nat.mul_add_div (by norm_num), Nat.div_eq_of_lt (by omega),
      Nat.add_zero]
    omega

theorem decode_marker (fuel : Nat) : decodeLoop (fuel + 1) [126, 62] = .ok [] := by
  have hcol : collectGroup (126 :: [62]) [] = .ok ([], 0, [126, 62], true) :=
    collectGroup_eod [] (by simp)
  rw [decodeLoop_eod fuel 126 [62] [] [126, 62] 0 hcol]
  rfl

theorem base85_length (v : Nat) : (base256Tobase85 v).length = 5 := rfl

theorem a85_loop (g : Nat) : ∀ (X : Bytes) (fuel : Nat), X.length ≤ 4 * g →
    ByteVals X →
    (X.length % 4 ≠ 0 → ¬ ∀ b ∈ X.drop (4 * (X.length / 4)), b = 0) →
    (encodeGroups X ++ [126, 62]).length ≤ fuel →
    decodeLoop fuel (encodeGroups X ++ [126, 62]) = .ok X := by
  induction g with
  | zero =>
    intro X fuel hlen hXv hcond hfuel
    have hX0 : X = [] := by
      cases X with
      | nil => rfl
      | cons a l => simp at hlen
    subst hX0
    rw [show encodeGroups [] = ([] : Bytes) from rfl, List.nil_append]
      at hfuel ⊢
    obtain ⟨f, rfl⟩ : ∃ f, fuel = f + 1 := by
      cases fuel with
      | zero => simp at hfuel
      | succ f => exact ⟨f, rfl⟩
    exact decode_marker f
  | succ g ih =>
    intro X fuel hlen hXv hcond hfuel
    cases X with
    | nil =>
      rw [show encodeGroups [] = ([] : Bytes) from rfl, List.nil_append]
        at hfuel ⊢
      obtain ⟨f, rfl⟩ : ∃ f, fuel = f + 1 := by
        cases fuel with
        | zero => simp at hfuel
        | succ f => exact ⟨f, rfl⟩
      exact decode_marker f
    | cons b1 t1 =>
    cases t1 with
    | nil =>
      have h := hcond (by simp)
      rw [show List.drop (4 * ([b1].length / 4)) [b1] = [b1] from by
        norm_num] at h
      have hnz : b1 ≠ 0 := by simpa using h
      have hb1 : b1 < 256 := hXv b1 (by simp)
      have hvlt : b1 * 2 ^ 24 + 0 * 2 ^ 16 + 0 * 2 ^ 8 + 0 < 2 ^ 32 := by
        omega
      have henc : encodeGroups [b1] =
          ((base256Tobase85
            (b1 * 2 ^ 24 + 0 * 2 ^ 16 + 0 * 2 ^ 8 + 0)).take 2).map
            (· + 33) := by
        show (if b1 * 2 ^ 24 + 0 * 2 ^ 16 + 0 * 2 ^ 8 + 0 = 0 then [122]
              else ((base256Tobase85
                (b1 * 2 ^ 24 + 0 * 2 ^ 16 + 0 * 2 ^ 8 + 0)).take 2).map
                (· + 33)) = _
        rw [if_neg (by omega)]
      have hds : ∀ d ∈ ((base256Tobase85
          (b1 * 2 ^ 24 + 0 * 2 ^ 16 + 0 * 2 ^ 8 + 0)).take 2).map (· + 33),
          33 ≤ d ∧ d ≤ 117 := by
        intro d hd
        obtain ⟨e, he, rfl⟩ := List.mem_map.mp hd
        have := digit_le _ hvlt e (List.mem_of_mem_take he)
        omega
      have hcol : collectGroup ((((base256Tobase85
          (b1 * 2 ^ 24 + 0 * 2 ^ 16 + 0 * 2 ^ 8 + 0)).take 2).map
          (· + 33)) ++ [126, 62]) [] =
          .ok ((base256Tobase85
            (b1 * 2 ^ 24 + 0 * 2 ^ 16 + 0 * 2 ^ 8 + 0)).take 2,
            1, [126, 62], true) := by
        rw [collectGroup_digits _ [] [126, 62] hds (by simp),
          List.nil_append, map_addsub,
          collectGroup_eod _ (by simp)]
        rfl
      rw [henc] at hfuel ⊢
      obtain ⟨f, rfl⟩ : ∃ f, fuel = f + 1 := by
        cases fuel with
        | zero => simp at hfuel
        | succ f => exact ⟨f, rfl⟩
      rw [show (((base256Tobase85
          (b1 * 2 ^ 24 + 0 * 2 ^ 16 + 0 * 2 ^ 8 + 0)).take 2).map
          (· + 33)) ++ [126, 62] =
          ((b1 * 2 ^ 24 + 0 * 2 ^ 16 + 0 * 2 ^ 8 + 0) / 85 ^ 4 + 33) ::
            (((b1 * 2 ^ 24 + 0 * 2 ^ 16 + 0 * 2 ^ 8 + 0) / 85 ^ 3 % 85 + 33)
              :: [126, 62]) from rfl] at hcol ⊢
      rw [decodeLoop_eod f _ _ _ _ 1 hcol, partial1 b1 hb1]
    | cons b2 t2 =>
    cases t2 with
    | nil =>
      have h := hcond (by simp)
      rw [show List.drop (4 * ([b1, b2].length / 4)) [b1, b2] = [b1, b2]
        from by norm_num] at h
      have hnz : ¬ (b1 = 0 ∧ b2 = 0) := by simpa using h
      have hb1 : b1 < 256 := hXv b1 (by simp)
      have hb2 : b2 < 256 := hXv b2 (by simp)
      have hvlt : b1 * 2 ^ 24 + b2 * 2 ^ 16 + 0 * 2 ^ 8 + 0 < 2 ^ 32 := by
        omega
      have henc : encodeGroups [b1, b2] =
          ((base256Tobase85
            (b1 * 2 ^ 24 + b2 * 2 ^ 16 + 0 * 2 ^ 8 + 0)).take 3).map
            (· + 33) := by
        show (if b1 * 2 ^ 24 + b2 * 2 ^ 16 + 0 * 2 ^ 8 + 0 = 0 then [122]
              else ((base256Tobase85
                (b1 * 2 ^ 24 + b2 * 2 ^ 16 + 0 * 2 ^ 8 + 0)).take 3).map
                (· + 33)) = _
        rw [if_neg (by omega)]
      have hds : ∀ d ∈ ((base256Tobase85
          (b1 * 2 ^ 24 + b2 * 2 ^ 16 + 0 * 2 ^ 8 + 0)).take 3).map (· + 33),
          33 ≤ d ∧ d ≤ 117 := by
        intro d hd
        obtain ⟨e, he, rfl⟩ := List.mem_map.mp hd
        have := digit_le _ hvlt e (List.mem_of_mem_take he)
        omega
      have hcol : collectGroup ((((base256Tobase85
          (b1 * 2 ^ 24 + b2 * 2 ^ 16 + 0 * 2 ^ 8 + 0)).take 3).map
          (· + 33)) ++ [126, 62]) [] =
          .ok ((base256Tobase85
            (b1 * 2 ^ 24 + b2 * 2 ^ 16 + 0 * 2 ^ 8 + 0)).take 3,
            2, [126, 62], true) := by
        rw [collectGroup_digits _ [] [126, 62] hds (by simp),
          List.nil_append, map_addsub,
          collectGroup_eod _ (by simp)]
        rfl
      rw [henc] at hfuel ⊢
      obtain ⟨f, rfl⟩ : ∃ f, fuel = f + 1 := by
        cases fuel with
        | zero => simp at hfuel
        | succ f => exact ⟨f, rfl⟩
      rw [show (((base256Tobase85
          (b1 * 2 ^ 24 + b2 * 2 ^ 16 + 0 * 2 ^ 8 + 0)).take 3).map
          (· + 33)) ++ [126, 62] =
          ((b1 * 2 ^ 24 + b2 * 2 ^ 16 + 0 * 2 ^ 8 + 0) / 85 ^ 4 + 33) ::
            (((b1 * 2 ^ 24 + b2 * 2 ^ 16 + 0 * 2 ^ 8 + 0) / 85 ^ 3 % 85 + 33)
              :: ((b1 * 2 ^ 24 + b2 * 2 ^ 16 + 0 * 2 ^ 8 + 0) / 85 ^ 2 % 85
                + 33) :: [126, 62]) from rfl] at hcol ⊢
      rw [decodeLoop_eod f _ _ _ _ 2 hcol, partial2 b1 b2 hb1 hb2]
    | cons b3 t3 =>
    cases t3 with
    | nil =>
      have h := hcond (by simp)
      rw [show List.drop (4 * ([b1, b2, b3].length / 4)) [b1, b2, b3] =
        [b1, b2, b3] from by norm_num] at h
      have hnz : ¬ (b1 = 0 ∧ b2 = 0 ∧ b3 = 0) := by simpa using h
      have hb1 : b1 < 256 := hXv b1 (by simp)
      have hb2 : b2 < 256 := hXv b2 (by simp)
      have hb3 : b3 < 256 := hXv b3 (by simp)
      have hvlt : b1 * 2 ^ 24 + b2 * 2 ^ 16 + b3 * 2 ^ 8 + 0 < 2 ^ 32 := by
        omega
      have henc : encodeGroups [b1, b2, b3] =
          ((base256Tobase85
            (b1 * 2 ^ 24 + b2 * 2 ^ 16 + b3 * 2 ^ 8 + 0)).take 4).map
            (· + 33) := by
        show (if b1 * 2 ^ 24 + b2 * 2 ^ 16 + b3 * 2 ^ 8 + 0 = 0 then [122]
              else ((base256Tobase85
                (b1 * 2 ^ 24 + b2 * 2 ^ 16 + b3 * 2 ^ 8 + 0)).take 4).map
                (· + 33)) = _
        rw [if_neg (by omega)]
      have hds : ∀ d ∈ ((base256Tobase85
          (b1 * 2 ^ 24 + b2 * 2 ^ 16 + b3 * 2 ^ 8 + 0)).take 4).map (· + 33),
          33 ≤ d ∧ d ≤ 117 := by
        intro d hd
        obtain ⟨e, he, rfl⟩ := List.mem_map.mp hd
        have := digit_le _ hvlt e (List.mem_of_mem_take he)
        omega
      have hcol : collectGroup ((((base256Tobase85
          (b1 * 2 ^ 24 + b2 * 2 ^ 16 + b3 * 2 ^ 8 + 0)).take 4).map
          (· + 33)) ++ [126, 62]) [] =
          .ok ((base256Tobase85
            (b1 * 2 ^ 24 + b2 * 2 ^ 16 + b3 * 2 ^ 8 + 0)).take 4,
            3, [126, 62], true) := by
        rw [collectGroup_digits _ [] [126, 62] hds (by simp),
          List.nil_append, map_addsub,
          collectGroup_eod _ (by simp)]
        rfl
      rw [henc] at hfuel ⊢
      obtain ⟨f, rfl⟩ : ∃ f, fuel = f + 1 := by
        cases fuel with
        | zero => simp at hfuel
        | succ f => exact ⟨f, rfl⟩
      rw [show (((base256Tobase85
          (b1 * 2 ^ 24 + b2 * 2 ^ 16 + b3 * 2 ^ 8 + 0)).take 4).map
          (· + 33)) ++ [126, 62] =
          ((b1 * 2 ^ 24 + b2 * 2 ^ 16 + b3 * 2 ^ 8 + 0) / 85 ^ 4 + 33) ::
            (((b1 * 2 ^ 24 + b2 * 2 ^ 16 + b3 * 2 ^ 8 + 0) / 85 ^ 3 % 85 + 33)
              :: ((b1 * 2 ^ 24 + b2 * 2 ^ 16 + b3 * 2 ^ 8 + 0) / 85 ^ 2 % 85
                + 33) :: ((b1 * 2 ^ 24 + b2 * 2 ^ 16 + b3 * 2 ^ 8 + 0) / 85
                  % 85 + 33) :: [126, 62]) from rfl] at hcol ⊢
      rw [decodeLoop_eod f _ _ _ _ 3 hcol, partial3 b1 b2 b3 hb1 hb2 hb3]
    | cons b4 rest =>
      have hb1 : b1 < 256 := hXv b1 (by simp)
      have hb2 : b2 < 256 := hXv b2 (by simp)
      have hb3 : b3 < 256 := hXv b3 (by simp)
      have hb4 : b4 < 256 := hXv b4 (by simp)
      have hrestv : ByteVals rest := fun x hx => hXv x (by simp [hx])
      have hrestlen : rest.length ≤ 4 * g := by
        simp only [List.length_cons] at hlen
        omega
      have hrestcond : rest.length % 4 ≠ 0 →
          ¬ ∀ b ∈ rest.drop (4 * (rest.length / 4)), b = 0 := by
        intro hm hall
        have h4 : (b1 :: b2 :: b3 :: b4 :: rest).length % 4 ≠ 0 := by
          simp only [List.length_cons]
          omega
        apply hcond h4
        have hdrop : (b1 :: b2 :: b3 :: b4 :: rest).drop
            (4 * ((b1 :: b2 :: b3 :: b4 :: rest).length / 4)) =
            rest.drop (4 * (rest.length / 4)) := by
          have hlen4 : (b1 :: b2 :: b3 :: b4 :: rest).length =
              rest.length + 4 := by simp
          rw [hlen4,
            show 4 * ((rest.length + 4) / 4) = 4 + 4 * (rest.length / 4)
              from by omega,
            ← List.drop_drop]
          rfl
        rw [hdrop]
        exact hall
      by_cases hz : b1 * 2 ^ 24 + b2 * 2 ^ 16 + b3 * 2 ^ 8 + b4 = 0
      · have henc : encodeGroups (b1 :: b2 :: b3 :: b4 :: rest) =
            [122] ++ encodeGroups rest := by
          show (if b1 * 2 ^ 24 + b2 * 2 ^ 16 + b3 * 2 ^ 8 + b4 = 0 then [122]
                else ((base256Tobase85
                  (b1 * 2 ^ 24 + b2 * 2 ^ 16 + b3 * 2 ^ 8 + b4)).take 5).map
                  (· + 33)) ++ encodeGroups rest = _
          rw [if_pos hz]
        rw [henc] at hfuel ⊢
        simp only [List.cons_append, List.nil_append] at hfuel ⊢
        obtain ⟨f, rfl⟩ : ∃ f, fuel = f + 1 := by
          cases fuel with
          | zero => simp at hfuel
          | succ f => exact ⟨f, rfl⟩
        rw [decodeLoop_go f 122 _ [] _ 4
          (collectGroup_z (encodeGroups rest ++ [126, 62]))]
        rw [ih rest f hrestlen hrestv hrestcond
          (by simp only [List.length_cons] at hfuel; omega)]
        show Except.ok
          ((valueBytes (groupValue (padCodes ([] : Bytes) 4))).take 4 ++ rest)
          = _
        rw [show (valueBytes (groupValue (padCodes ([] : Bytes) 4))).take 4 =
          [0, 0, 0, 0] from rfl]
        simp [show b1 = 0 from by omega, show b2 = 0 from by omega,
          show b3 = 0 from by omega, show b4 = 0 from by omega]
      · have hvlt : b1 * 2 ^ 24 + b2 * 2 ^ 16 + b3 * 2 ^ 8 + b4 < 2 ^ 32 := by
          omega
        have htake : (base256Tobase85
            (b1 * 2 ^ 24 + b2 * 2 ^ 16 + b3 * 2 ^ 8 + b4)).take 5 =
            base256Tobase85 (b1 * 2 ^ 24 + b2 * 2 ^ 16 + b3 * 2 ^ 8 + b4) :=
          List.take_of_length_le (by rw [base85_length])
        have henc : encodeGroups (b1 :: b2 :: b3 :: b4 :: rest) =
            ((base256Tobase85
              (b1 * 2 ^ 24 + b2 * 2 ^ 16 + b3 * 2 ^ 8 + b4)).map (· + 33)) ++
              encodeGroups rest := by
          show (if b1 * 2 ^ 24 + b2 * 2 ^ 16 + b3 * 2 ^ 8 + b4 = 0 then [122]
                else ((base256Tobase85
                  (b1 * 2 ^ 24 + b2 * 2 ^ 16 + b3 * 2 ^ 8 + b4)).take 5).map
                  (· + 33)) ++ encodeGroups rest = _
          rw [if_neg hz, htake]
        have hds : ∀ d ∈ (base256Tobase85
            (b1 * 2 ^ 24 + b2 * 2 ^ 16 + b3 * 2 ^ 8 + b4)).map (· + 33),
            33 ≤ d ∧ d ≤ 117 := by
          intro d hd
          obtain ⟨e, he, rfl⟩ := List.mem_map.mp hd
          have := digit_le _ hvlt e he
          omega
        have hcol : collectGroup (((base256Tobase85
            (b1 * 2 ^ 24 + b2 * 2 ^ 16 + b3 * 2 ^ 8 + b4)).map (· + 33)) ++
            (encodeGroups rest ++ [126, 62])) [] =
            .ok (base256Tobase85
              (b1 * 2 ^ 24 + b2 * 2 ^ 16 + b3 * 2 ^ 8 + b4), 4,
              encodeGroups rest ++ [126, 62], false) := by
          rw [collectGroup_digits _ [] _ hds (by simp [base85_length]),
            List.nil_append, map_addsub,
            collectGroup_full _ _ (by rw [base85_length])]
        rw [henc] at hfuel ⊢
        rw [List.append_assoc] at hfuel ⊢
        obtain ⟨f, rfl⟩ : ∃ f, fuel = f + 1 := by
          cases fuel with
          | zero =>
            rw [show (base256Tobase85
              (b1 * 2 ^ 24 + b2 * 2 ^ 16 + b3 * 2 ^ 8 + b4)).map (· + 33) =
              [(b1 * 2 ^ 24 + b2 * 2 ^ 16 + b3 * 2 ^ 8 + b4) / 85 ^ 4 + 33,
               (b1 * 2 ^ 24 + b2 * 2 ^ 16 + b3 * 2 ^ 8 + b4) / 85 ^ 3 % 85
                 + 33,
               (b1 * 2 ^ 24 + b2 * 2 ^ 16 + b3 * 2 ^ 8 + b4) / 85 ^ 2 % 85
                 + 33,
               (b1 * 2 ^ 24 + b2 * 2 ^ 16 + b3 * 2 ^ 8 + b4) / 85 % 85 + 33,
               (b1 * 2 ^ 24 + b2 * 2 ^ 16 + b3 * 2 ^ 8 + b4) % 85 + 33]
              from rfl] at hfuel
            simp at hfuel
          | succ f => exact ⟨f, rfl⟩
        rw [show ((base256Tobase85
            (b1 * 2 ^ 24 + b2 * 2 ^ 16 + b3 * 2 ^ 8 + b4)).map (· + 33)) ++
            (encodeGroups rest ++ [126, 62]) =
            ((b1 * 2 ^ 24 + b2 * 2 ^ 16 + b3 * 2 ^ 8 + b4) / 85 ^ 4 + 33) ::
              ((((b1 * 2 ^ 24 + b2 * 2 ^ 16 + b3 * 2 ^ 8 + b4) / 85 ^ 3 % 85
                  + 33) ::
                ((b1 * 2 ^ 24 + b2 * 2 ^ 16 + b3 * 2 ^ 8 + b4) / 85 ^ 2 % 85
                  + 33) ::
                ((b1 * 2 ^ 24 + b2 * 2 ^ 16 + b3 * 2 ^ 8 + b4) / 85 % 85
                  + 33) ::
                ((b1 * 2 ^ 24 + b2 * 2 ^ 16 + b3 * 2 ^ 8 + b4) % 85 + 33) ::
                (encodeGroups rest ++ [126, 62])) : Bytes)
            from rfl] at hcol ⊢
        rw [decodeLoop_go f _ _ _ _ 4 hcol]
        rw [ih rest f hrestlen hrestv hrestcond
          (by simp only [List.length_cons, List.length_append,
                List.length_map, base85_length, List.length_nil]
                at hfuel ⊢
              omega)]
        show Except.ok ((valueBytes (groupValue (padCodes (base256Tobase85
          (b1 * 2 ^ 24 + b2 * 2 ^ 16 + b3 * 2 ^ 8 + b4)) 4))).take 4 ++ rest)
          = _
        rw [full_value b1 b2 b3 b4 hb1 hb2 hb3 hb4]
        simp

theorem a85_roundtrip (X : Bytes) (hX : ByteVals X)
    (hcond : X.length % 4 ≠ 0 → ¬ ∀ b ∈ X.drop (4 * (X.length / 4)), b = 0) :
    (EncodeBytes X).bind DecodeBytes = .ok X := by
  rw [EncodeBytes]
  show DecodeBytes (encodeGroups X ++ [126, 62]) = _
  rw [DecodeBytes]
  exact a85_loop X.length X _ (by omega) hX hcond le_rfl

end ASCII85Encoder


/-- Claim C1, counterexample: two codecs in the claim's list fail the
round trip.  The run-length encoder returns empty output for empty input
(early return, no end-of-data marker), and its decoder reports the read
error (`io.EOF`) on empty input; the ASCII85 encoder emits the `z`
shortcut for the zero-padded trailing group of the 1-byte input 00, which
the decoder expands back to a full four-byte group. -/
theorem c1_counterexample :
    ((RunLengthEncoder.EncodeBytes []).bind RunLengthEncoder.DecodeBytes =
      .error .eof) ∧
    ((ASCII85Encoder.EncodeBytes [0]).bind ASCII85Encoder.DecodeBytes =
      .ok [0, 0, 0, 0]) ∧
    ASCII85Encoder.EncodeBytes [0] = .ok [122, 126, 62] := by
  refine ⟨by decide, by decide, by decide⟩

/-- Claim C1, amended: decode-of-encode is the identity for the Raw codec
on every input; for the run-length codec on every nonempty input; for the
ASCII-hex codec on every byte-valued input; and for the ASCII85 codec on
every byte-valued input whose trailing partial group (when the length is
not a multiple of 4) is not all zero bytes.  The two excluded cases fail
(see the counterexample): run-length encoding of the empty input omits the
end-of-data marker that its decoder requires, and an all-zero trailing
partial group is encoded as `z` and decoded as four bytes. -/
theorem c1_amended (X : Bytes) (hX : ByteVals X) :
    ((RawEncoder.EncodeBytes X).bind RawEncoder.DecodeBytes = .ok X) ∧
    (X ≠ [] →
      (RunLengthEncoder.EncodeBytes X).bind RunLengthEncoder.DecodeBytes =
        .ok X) ∧
    ((ASCIIHexEncoder.EncodeBytes X).bind ASCIIHexEncoder.DecodeBytes =
      .ok X) ∧
    ((X.length % 4 ≠ 0 → ¬ ∀ b ∈ X.drop (4 * (X.length / 4)), b = 0) →
      (ASCII85Encoder.EncodeBytes X).bind ASCII85Encoder.DecodeBytes =
        .ok X) :=
  ⟨rfl, fun hne => RunLengthEncoder.rl_roundtrip X hne,
   ASCIIHexEncoder.hex_roundtrip X hX,
   fun hc => ASCII85Encoder.a85_roundtrip X hX hc⟩

/-- Witness for `c1_amended`: all four round trips on the 3-byte input
"Man" (4D 61 6E), whose trailing partial group is nonzero. -/
theorem c1_witness :
    (ByteVals [77, 97, 110] ∧ ([77, 97, 110] : Bytes) ≠ [] ∧
      (([77, 97, 110] : Bytes).length % 4 ≠ 0 →
        ¬ ∀ b ∈ ([77, 97, 110] : Bytes).drop
          (4 * (([77, 97, 110] : Bytes).length / 4)), b = 0)) ∧
    ((RawEncoder.EncodeBytes [77, 97, 110]).bind RawEncoder.DecodeBytes =
      .ok [77, 97, 110]) ∧
    ((RunLengthEncoder.EncodeBytes [77, 97, 110]).bind
      RunLengthEncoder.DecodeBytes = .ok [77, 97, 110]) ∧
    ((ASCIIHexEncoder.EncodeBytes [77, 97, 110]).bind
      ASCIIHexEncoder.DecodeBytes = .ok [77, 97, 110]) ∧
    ((ASCII85Encoder.EncodeBytes [77, 97, 110]).bind
      ASCII85Encoder.DecodeBytes = .ok [77, 97, 110]) :=
  ⟨⟨by decide, by decide, by decide⟩,
   (c1_amended [77, 97, 110] (by decide)).1,
   (c1_amended [77, 97, 110] (by decide)).2.1 (by decide),
   (c1_amended [77, 97, 110] (by decide)).2.2.1,
   (c1_amended [77, 97, 110] (by decide)).2.2.2 (by decide)⟩

/-! ## Claim C4: each object transformed at most once per pass -/

theorem walkPost_refl (s : WalkState) : WalkPost s s :=
  ⟨fun x hx => hx, [], by simp, by simp [streamIds], by simp [streamIds]⟩

theorem walkPost_of_eq (s s' : WalkState) (hm : s'.memo = s.memo)
    (hl : s'.log = s.log) : WalkPost s s' :=
  ⟨by rw [hm]; exact fun x hx => hx, [], by simp [hl], by simp [streamIds],
   by simp [streamIds]⟩

theorem walkPost_memo_cons (s : WalkState) (id : Nat) :
    WalkPost s { s with memo := id :: s.memo } :=
  ⟨fun x hx => List.mem_cons_of_mem id hx, [], by simp, by simp [streamIds],
   by simp [streamIds]⟩

theorem streamIds_append (a b : List (Bool × Nat)) :
    streamIds (a ++ b) = streamIds a ++ streamIds b := by
  simp [streamIds, List.filter_append]

theorem walkPost_trans (s1 s2 s3 : WalkState) (h12 : WalkPost s1 s2)
    (h23 : WalkPost s2 s3) : WalkPost s1 s3 := by
  obtain ⟨hm12, D1, hl1, hn1, hf1⟩ := h12
  obtain ⟨hm23, D2, hl2, hn2, hf2⟩ := h23
  refine ⟨fun x hx => hm23 (hm12 hx), D1 ++ D2, ?_, ?_, ?_⟩
  · rw [hl2, hl1, List.append_assoc]
  · rw [streamIds_append, List.nodup_append]
    refine ⟨hn1, hn2, ?_⟩
    intro x hx1 hx2
    exact (hf2 x hx2).2 (hf1 x hx1).1
  · intro x hx
    rw [streamIds_append, List.mem_append] at hx
    rcases hx with hx | hx
    · exact ⟨hm23 (hf1 x hx).1, (hf1 x hx).2⟩
    · exact ⟨(hf2 x hx).1, fun hmem => (hf2 x hx).2 (hm12 hmem)⟩

theorem walkPost_str_step (s : WalkState) (id : Nat) (H : List PdfObj) :
    WalkPost s { s with heap := H, log := s.log ++ [(false, id)] } :=
  ⟨fun x hx => hx, [(false, id)], rfl, by simp [streamIds],
   by simp [streamIds]⟩

theorem walkPost_stream_step (st st2 : WalkState) (id : Nat)
    (H : List PdfObj)
    (h12 : WalkPost { st with memo := id :: st.memo } st2)
    (hid : id ∉ st.memo) :
    WalkPost st { st2 with heap := H, log := st2.log ++ [(true, id)] } := by
  obtain ⟨hm, D1, hl, hn, hf⟩ := h12
  have hidm : id ∈ st2.memo := hm (by simp)
  refine ⟨fun x hx => hm (by simp [hx]), D1 ++ [(true, id)], ?_, ?_, ?_⟩
  · show st2.log ++ [(true, id)] = st.log ++ (D1 ++ [(true, id)])
    rw [hl, List.append_assoc]
  · rw [streamIds_append, List.nodup_append]
    refine ⟨hn, by simp [streamIds], ?_⟩
    intro x hx1 hx2
    have hx2' : x = id := by
      simpa [streamIds] using hx2
    subst hx2'
    exact (hf x hx1).2 (by simp)
  · intro x hx
    rw [streamIds_append, List.mem_append] at hx
    rcases hx with hx | hx
    · refine ⟨(hf x hx).1, fun hmem => (hf x hx).2 (by simp [hmem])⟩
    · have hx' : x = id := by simpa [streamIds] using hx
      subst hx'
      exact ⟨hidm, hid⟩

theorem decryptGo_cons (P : ExtPrims) (crypt : PdfCrypt) (fuel : Nat)
    (st : WalkState) (id : Nat) (rest : List Nat) (po pg : Nat) :
    PdfCrypt.decryptGo P crypt (fuel + 1) st (id :: rest) po pg =
      (match decryptOne P crypt fuel st id po pg with
       | (st', none) => PdfCrypt.decryptGo P crypt fuel st' rest po pg
       | r => r) := rfl

set_option maxRecDepth 8000 in
theorem decryptOne_post (P : ExtPrims) (crypt : PdfCrypt) (fuel : Nat)
    (ih : ∀ (ids : List Nat) (st : WalkState) (po pg : Nat),
      WalkPost st (PdfCrypt.decryptGo P crypt fuel st ids po pg).1)
    (st : WalkState) (id po pg : Nat) :
    WalkPost st (decryptOne P crypt fuel st id po pg).1 := by
  rw [decryptOne]
  split
  · exact walkPost_refl st
  · rename_i hid
    split
    · rename_i o g c heq
      exact walkPost_trans _ _ _ (walkPost_memo_cons st id) (ih [c] _ o g)
    · rename_i o g d data heq
      split
      · exact walkPost_memo_cons st id
      · rename_i streamFilter hsf
        split
        · exact walkPost_memo_cons st id
        · split
          · rename_i st2 e heq2
            refine walkPost_trans _ _ _ (walkPost_memo_cons st id) ?_
            have h := ih [d] { st with memo := id :: st.memo } o g
            rw [heq2] at h
            exact h
          · rename_i st2 heq2
            have h2 : WalkPost { st with memo := id :: st.memo } st2 := by
              have h := ih [d] { st with memo := id :: st.memo } o g
              rw [heq2] at h
              exact h
            split
            · split
              · exact walkPost_stream_step st st2 id _ h2 hid
              · exact walkPost_trans _ _ _ (walkPost_memo_cons st id) h2
            · exact walkPost_trans _ _ _ (walkPost_memo_cons st id) h2
            · exact walkPost_trans _ _ _ (walkPost_memo_cons st id) h2
    · rename_i data heq
      split
      · exact walkPost_refl st
      · rename_i stringFilter hsf
        split
        · exact walkPost_refl st
        · rename_i key hkey
          split
          · exact walkPost_str_step st id _
          · exact walkPost_refl st
    · rename_i elems heq
      exact ih elems st po pg
    · rename_i entries heq
      exact ih _ st po pg
    · exact walkPost_refl st
    · exact walkPost_refl st

theorem decryptGo_post (P : ExtPrims) (crypt : PdfCrypt) :
    ∀ (fuel : Nat) (ids : List Nat) (st : WalkState) (po pg : Nat),
      WalkPost st (PdfCrypt.decryptGo P crypt fuel st ids po pg).1 := by
  intro fuel
  induction fuel with
  | zero =>
    intro ids st po pg
    cases ids with
    | nil => exact walkPost_refl st
    | cons i r => exact walkPost_refl st
  | succ fuel ih =>
    intro ids st po pg
    cases ids with
    | nil => exact walkPost_refl st
    | cons id rest =>
      rw [decryptGo_cons]
      have hone := decryptOne_post P crypt fuel ih st id po pg
      rcases hres : decryptOne P crypt fuel st id po pg with ⟨st', e⟩
      rw [hres] at hone
      cases e with
      | none => exact walkPost_trans _ _ _ hone (ih rest st' po pg)
      | some err => exact hone

theorem encryptGo_cons (P : ExtPrims) (crypt : PdfCrypt) (fuel : Nat)
    (st : WalkState) (id : Nat) (rest : List Nat) (po pg : Nat) :
    PdfCrypt.encryptGo P crypt (fuel + 1) st (id :: rest) po pg =
      (match encryptOne P crypt fuel st id po pg with
       | (st', none) => PdfCrypt.encryptGo P crypt fuel st' rest po pg
       | r => r) := rfl

set_option maxRecDepth 8000 in
theorem encryptOne_post (P : ExtPrims) (crypt : PdfCrypt) (fuel : Nat)
    (ih : ∀ (ids : List Nat) (st : WalkState) (po pg : Nat),
      WalkPost st (PdfCrypt.encryptGo P crypt fuel st ids po pg).1)
    (st : WalkState) (id po pg : Nat) :
    WalkPost st (encryptOne P crypt fuel st id po pg).1 := by
  rw [encryptOne]
  split
  · exact walkPost_refl st
  · rename_i hid
    split
    · rename_i o g c heq
      exact walkPost_trans _ _ _ (walkPost_memo_cons st id) (ih [c] _ o g)
    · rename_i o g d data heq
      split
      · exact walkPost_memo_cons st id
      · rename_i streamFilter hsf
        split
        · exact walkPost_memo_cons st id
        · split
          · rename_i st2 e heq2
            refine walkPost_trans _ _ _ (walkPost_memo_cons st id) ?_
            have h := ih [d] { st with memo := id :: st.memo } o g
            rw [heq2] at h
            exact h
          · rename_i st2 heq2
            have h2 : WalkPost { st with memo := id :: st.memo } st2 := by
              have h := ih [d] { st with memo := id :: st.memo } o g
              rw [heq2] at h
              exact h
            split
            · split
              · exact walkPost_stream_step st st2 id _ h2 hid
              · exact walkPost_trans _ _ _ (walkPost_memo_cons st id) h2
            · exact walkPost_trans _ _ _ (walkPost_memo_cons st id) h2
            · exact walkPost_trans _ _ _ (walkPost_memo_cons st id) h2
    · rename_i data heq
      split
      · exact walkPost_refl st
      · rename_i stringFilter hsf
        split
        · exact walkPost_refl st
        · rename_i key hkey
          split
          · exact walkPost_str_step st id _
          · exact walkPost_refl st
    · rename_i elems heq
      exact ih elems st po pg
    · rename_i entries heq
      exact ih _ st po pg
    · exact walkPost_refl st
    · exact walkPost_refl st

theorem encryptGo_post (P : ExtPrims) (crypt : PdfCrypt) :
    ∀ (fuel : Nat) (ids : List Nat) (st : WalkState) (po pg : Nat),
      WalkPost st (PdfCrypt.encryptGo P crypt fuel st ids po pg).1 := by
  intro fuel
  induction fuel with
  | zero =>
    intro ids st po pg
    cases ids with
    | nil => exact walkPost_refl st
    | cons i r => exact walkPost_refl st
  | succ fuel ih =>
    intro ids st po pg
    cases ids with
    | nil => exact walkPost_refl st
    | cons id rest =>
      rw [encryptGo_cons]
      have hone := encryptOne_post P crypt fuel ih st id po pg
      rcases hres : encryptOne P crypt fuel st id po pg with ⟨st', e⟩
      rw [hres] at hone
      cases e with
      | none => exact walkPost_trans _ _ _ hone (ih rest st' po pg)
      | some err => exact hone

/-- Claim C4, amended: during a single decryption pass (and likewise a
single encryption pass) starting from an empty observation log, the
stream-tagged byte-level transformations hit pairwise-distinct objects:
streams (like indirect objects) are memoised by identity before their data
is transformed, so no stream is decrypted or encrypted twice.  Direct
string objects are NOT memoised — a string reachable through two container
slots is transformed once per path (see the counterexample) — so the
claim's "no string ... has the transformation applied twice" is too
strong. -/
theorem c4_amended (P : ExtPrims) (crypt : PdfCrypt) (fuel : Nat)
    (heap : List PdfObj) (memo : List Nat) (id po pg : Nat) :
    (streamIds
      (PdfCrypt.decryptObj P crypt fuel ⟨heap, memo, []⟩ id po pg).1.log).Nodup ∧
    (streamIds
      (PdfCrypt.encryptObj P crypt fuel ⟨heap, memo, []⟩ id po pg).1.log).Nodup := by
  constructor
  · obtain ⟨-, D, hlog, hnd, -⟩ :=
      decryptGo_post P crypt fuel [id] ⟨heap, memo, []⟩ po pg
    rw [PdfCrypt.decryptObj, hlog]
    simpa using hnd
  · obtain ⟨-, D, hlog, hnd, -⟩ :=
      encryptGo_post P crypt fuel [id] ⟨heap, memo, []⟩ po pg
    rw [PdfCrypt.encryptObj, hlog]
    simpa using hnd

/-- Claim C4, counterexample: in a V4 document, a heap whose array holds
the same string address twice makes the decryption walker apply the string
transformation to that one object twice (two `(false, 2)` log entries),
with no error: string objects are not memoised by the walker. -/
theorem c4_counterexample :
    (PdfCrypt.decryptObj toyPrims v4WalkCrypt 10 ⟨sharedStrHeap, [], []⟩
      0 0 0).1.log = [(false, 2), (false, 2)] ∧
    (PdfCrypt.decryptObj toyPrims v4WalkCrypt 10 ⟨sharedStrHeap, [], []⟩
      0 0 0).2 = none := by
  refine ⟨by decide, by decide⟩


end Unidoc
